import Mathlib

/-!
Verification development for the appdash InfluxDB trace store
(`influxdb_store.go`): the record-merge logic of `Collect`
(`extendFields`, `withoutEmptyFields`, `mergeSchemasField`,
`schemasFromAnnotations`), the read-side schema filter
(`filterSchemas`, `schemaExists`, `findSchemasAnnotation`), and the
trace-tree assembler (`addChildren`, `findTraceParent`, `Trace`,
`Traces`).

Modelling conventions:
* Go maps are embedded as association lists in insertion order; Go map
  iteration order is unspecified, so every proved statement about a
  map-iterating computation is order-insensitive (stated up to
  permutation or via lookups).
* Go `interface{}` field values are `FieldValue` (`str` or `other`);
  a Go `nil` interface obtained from a missing map key is `Option.none`.
* Go `[]byte` annotation values only ever flow through `string(...)`
  conversions here, so they are embedded as `String`.
* Fallible Go code (returning `error`) is embedded as `Except String`
  with the literal Go error message; a Go panic (the nil-pointer
  dereference in `filterSchemas`) is embedded as `Option.none`.
* `time.Time` is embedded as `Nat`.
-/

/-! ## Constants (from the `const` block of `influxdb_store.go`) -/

def schemasFieldName : String := "schemas"

def schemasFieldSeparator : String := ","

def spanMeasurementName : String := "spans"

/-- Modelled from the spec: the fixed annotation-key prefix that marks
keys belonging to a registered event schema.  The constant
`schemaPrefix` is referenced by `influxdb_store.go` but defined in a
file of this repository that is not part of the given source; the spec
only requires it to be a fixed prefix string. -/
def schemaPre : String := "_schema:"

/-! ## Identifiers, annotations, spans

`ID` is the opaque 64-bit identifier of the spec (zero means "no
parent"); `SpanID` is the (trace, span, parent) triple; `Ann` models
the Go `Annotation` struct (`Key string`, `Value []byte`). -/

abbrev ID := Nat

/-- Modelled from the spec: the distinguished zero identifier that
denotes "no parent" (Go `ID(0)`). -/
def zeroID : ID := 0

structure SpanID where
  Trace : ID
  Span : ID
  Parent : ID
deriving DecidableEq

/-- Modelled from the spec: a span is a root of its trace iff its
parent identifier is the zero identifier (Go `SpanID.IsRoot`, defined
outside the given source file). -/
def SpanID.isRoot (id : SpanID) : Bool := id.Parent == zeroID

structure Ann where
  Key : String
  Value : String
deriving DecidableEq

structure Span where
  ID : SpanID
  Annotations : List Ann
deriving DecidableEq

/-! ## Executable string helpers

Own implementations of the Go `strings` operations used by the source,
written with plain structural recursion so that all witnesses evaluate
inside the kernel.  The only separator ever used is the one-character
string `","`. -/

/-- Go `strings.Split s sep` for a one-character separator `c`,
working on the character list. `[] ↦ [[]]` matches Go: splitting the
empty string yields one empty element. -/
def splitCharList (c : Char) : List Char → List (List Char)
  | [] => [[]]
  | ch :: rest =>
    match splitCharList c rest with
    | [] => [[ch]]
    | h :: t => if ch = c then [] :: h :: t else (ch :: h) :: t

/-- Go `strings.Split s sep`; `sep` is always a one-character string
here (the separator constant `","`). -/
def goSplit (s sep : String) : List String :=
  match sep.toList with
  | [c] => (splitCharList c s.toList).map (fun l => String.mk l)
  | _ => [s]

/-- Go `strings.Join l sep`. -/
def joinSep (sep : String) : List String → String
  | [] => ""
  | [s] => s
  | s :: rest => s ++ sep ++ joinSep sep rest

/-- Go `strings.HasPrefix s pre` (byte prefix; equivalently character
prefix, since matching a prefix is encoding-independent). -/
def hasPre (pre s : String) : Bool := pre.toList.isPrefixOf s.toList

/-- Go `s[len(pre):]` for an ASCII `pre` that is a prefix of `s`:
dropping `len(pre)` bytes coincides with dropping `pre.length`
characters. -/
def stripPre (pre s : String) : String := String.mk (s.toList.drop pre.toList.length)

/-! ## Point fields (`pointFields`, i.e. Go `map[string]interface{}`)

Association lists in insertion order; `setPF` is Go `m[k] = v`
(update in place when the key is present, append otherwise), `lookupPF`
is Go `v, ok := m[k]` (`none` is the nil interface of a missing key). -/

inductive FieldValue where
  | str (s : String)
  | other
deriving DecidableEq

abbrev pointFields := List (String × FieldValue)

def lookupPF : pointFields → String → Option FieldValue
  | [], _ => none
  | (k, v) :: rest, key => if k = key then some v else lookupPF rest key

/-- The entry rewrite performed by a Go map update on a present key. -/
def updEntry (k : String) (v : FieldValue) (kv : String × FieldValue) : String × FieldValue :=
  if kv.1 = k then (k, v) else kv

def setPF (pf : pointFields) (k : String) (v : FieldValue) : pointFields :=
  if (lookupPF pf k).isSome then pf.map (updEntry k v)
  else pf ++ [(k, v)]

/-- The keys of a Go map are distinct; association lists built through
`setPF` keep this invariant. -/
def NodupKeys (pf : pointFields) : Prop := (pf.map Prod.fst).Nodup

/-! ## Record codec pieces used by `Collect` -/

/-- The `fields` map built at the top of `Collect`:
`for _, ann := range anns { fields[ann.Key] = string(ann.Value) }`. -/
def annFields (anns : List Ann) : pointFields :=
  anns.foldl (fun pf a => setPF pf a.Key (.str a.Value)) []

/-- Go `extendFields(dst, src)`: for every `k, v` in `src`, if `k` is
already present in `dst` then `dst[k] = v`; `dst` is returned.  The
iteration order over the Go map `src` is unspecified; the embedding
iterates `src` in list order (the result is order-independent when
`src` has distinct keys, which the source guarantees). -/
def extStep (d : pointFields) (kv : String × FieldValue) : pointFields :=
  if (lookupPF d kv.1).isSome then setPF d kv.1 kv.2 else d

def extendFields (dst src : pointFields) : pointFields :=
  src.foldl extStep dst

/-- Go `withoutEmptyFields(pf)`: rebuild the map keeping non-string
values and non-empty strings, dropping empty strings (and nil values,
which cannot occur in this embedding of a map). -/
def woStep (r : pointFields) (kv : String × FieldValue) : pointFields :=
  match kv.2 with
  | .str s => if s = "" then r else setPF r kv.1 kv.2
  | .other => setPF r kv.1 kv.2

def withoutEmptyFields (pf : pointFields) : pointFields :=
  pf.foldl woStep []

/-! ## Schema tracker -/

/-- Go `schemasFromAnnotations(anns)`: collect the prefix-stripped
schema-prefixed keys (appending in order, without deduplication) and
join them with the separator. -/
def schemasFromAnnotations (anns : List Ann) : String :=
  joinSep schemasFieldSeparator
    (anns.foldl
      (fun schemas ann =>
        if hasPre schemaPre ann.Key then schemas ++ [stripPre schemaPre ann.Key]
        else schemas)
      [])

/-- The type-switch loop of `mergeSchemasField` that turns
`[]interface{}{new, old}` into `strFields`: strings are kept in order,
nils are skipped, anything else is the
`unexpected schema field type` error. -/
def collectStrFields : List (Option FieldValue) → Except String (List String)
  | [] => .ok []
  | none :: rest => collectStrFields rest
  | some (.str s) :: rest => (collectStrFields rest).map (fun l => s :: l)
  | some .other :: _ => .error "unexpected schema field type"

/-- Membership update of the Go `schemas` map: add `s` unless already
present. -/
def dedupStep (a : List String) (s : String) : List String :=
  if a.contains s then a else a ++ [s]

/-- One step of the deduplication loop of `mergeSchemasField`: split a
non-empty joined field on the separator and add each element to the
accumulated schema set if not already present. -/
def addSchemasOf (acc : List String) (strField : String) : List String :=
  if strField = "" then acc
  else (goSplit strField schemasFieldSeparator).foldl dedupStep acc

/-- Go `mergeSchemasField(new, old)`: both arguments are
string-or-nil `interface{}` values; the result joins the deduplicated
union of the separator-split elements.  The Go `schemas` map is
iterated in unspecified order when building `result`; the embedding
uses insertion order. -/
def mergeSchemasField (new old : Option FieldValue) : Except String String :=
  match collectStrFields [new, old] with
  | .error e => .error e
  | .ok strFields => .ok (joinSep schemasFieldSeparator (strFields.foldl addSchemasOf []))

/-! ## Read-side schema filter -/

/-- Go `schemaExists(schema, schemas)`. -/
def schemaExists (schema : String) : List String → Bool
  | [] => false
  | s :: rest => if schema = s then true else schemaExists schema rest

/-- Go `findSchemasAnnotation(anns)`: the first annotation whose key
equals `schemasFieldName`, if any. -/
def findSchemasAnn : List Ann → Option Ann
  | [] => none
  | a :: rest => if a.Key = schemasFieldName then some a else findSchemasAnn rest

/-- The filtering loop of `filterSchemas` once the manifest element
list `schemas` is known: schema-prefixed annotations are kept iff their
stripped key is listed, all other annotations pass through. -/
def filterSchemasLoop (schemas : List String) : List Ann → List Ann
  | [] => []
  | a :: rest =>
    if hasPre schemaPre a.Key then
      if schemaExists (stripPre schemaPre a.Key) schemas then a :: filterSchemasLoop schemas rest
      else filterSchemasLoop schemas rest
    else a :: filterSchemasLoop schemas rest

/-- Go `filterSchemas(anns)`.  When no annotation has key
`schemasFieldName`, `findSchemasAnnotation` returns `nil` and the Go
code dereferences it (`schemasAnn.Value`), a nil-pointer panic; the
panic is embedded as `none`. -/
def filterSchemas (anns : List Ann) : Option (List Ann) :=
  match findSchemasAnn anns with
  | none => none
  | some schemasAnn =>
    some (filterSchemasLoop (goSplit schemasAnn.Value schemasFieldSeparator) anns)

/-! ## The written point and the `Collect` core -/

/-- Decimal rendering of an identifier.  Modelled from the spec: the
canonical string form of an identifier (Go `ID.String()`, defined
outside the given source file); any injective rendering serves, the
claims never inspect tag strings. -/
def digitsAux : Nat → Nat → List Char
  | 0, _ => []
  | fuel + 1, n => if n = 0 then [] else digitsAux fuel (n / 10) ++ [Char.ofNat (48 + n % 10)]

def idString (i : ID) : String :=
  if i = 0 then "0" else String.mk (digitsAux (i + 1) i)

/-- The `tags` map built by `Collect` (and used as `p.Tags`). -/
def spanTags (id : SpanID) : List (String × String) :=
  [("trace_id", idString id.Trace), ("span_id", idString id.Span), ("parent_id", idString id.Parent)]

/-- Go `influxDBClient.Point` (the parts the source reads or writes). -/
structure Point where
  Measurement : String
  Tags : List (String × String)
  Fields : pointFields
  Time : Nat
deriving DecidableEq

/-- The pure core of `InfluxDBStore.Collect`: given the decoded result
`p` of `findSpanPoint` (`none` when no record exists for the exact
SpanID triple) and the current time `now`, the point handed to the
external write.  Mirrors `influxdb_store.go` lines 57-110. -/
def collectPoint (id : SpanID) (anns : List Ann) (p : Option Point) (now : Nat) :
    Except String Point :=
  let tags := spanTags id
  let fields := annFields anns
  match p with
  | some p =>
    match mergeSchemasField (some (.str (schemasFromAnnotations anns)))
        (lookupPF p.Fields schemasFieldName) with
    | .error e => .error e
    | .ok schemas =>
      let merged := extendFields fields (withoutEmptyFields p.Fields)
      .ok { Measurement := spanMeasurementName, Tags := tags,
            Fields := setPF merged schemasFieldName (.str schemas), Time := p.Time }
  | none =>
    .ok { Measurement := spanMeasurementName, Tags := tags,
          Fields := setPF fields schemasFieldName (.str (schemasFromAnnotations anns)),
          Time := now }

/-! ## `findSpanPoint` (decoding the point lookup) -/

/-- One row of an InfluxDB query result (`influxDBModels.Row`): the
column names and the value lists; a cell is a string, something else
(`other`), or JSON null (`none`). -/
structure Row where
  Columns : List String
  Values : List (List (Option FieldValue))

/-- Modelled from the spec: the stored `time` field's string value is
parsed as an RFC-3339 timestamp by the Go standard library (outside
this repository); the time axis is embedded as `Nat` and the parse as a
decimal-digit parse, an arbitrary injective choice the claims never
depend on. -/
def parseTimeStr (s : String) : Option Nat :=
  match s.toList with
  | [] => none
  | cs =>
    cs.foldl
      (fun acc c =>
        match acc with
        | none => none
        | some n => if c.isDigit then some (n * 10 + (c.toNat - 48)) else none)
      (some 0)

/-- The cell loop of `findSpanPoint`: `key := r.Columns[i]`; strings
are stored into `p.Fields` (the `time` column additionally sets
`p.Time` after a parse that may fail), nil cells are skipped, any other
type is the `unexpected field type` error.  A Go index-out-of-range
panic (more cells than columns) is embedded as an error. -/
def buildPointFields : List String → List (Option FieldValue) → Point → Except String Point
  | _, [], p => .ok p
  | [], _ :: _, _ => .error "index out of range"
  | key :: ks, cell :: cs, p =>
    match cell with
    | none => buildPointFields ks cs p
    | some .other => .error "unexpected field type"
    | some (.str s) =>
      if key = "time" then
        match parseTimeStr s with
        | none => .error "cannot parse time"
        | some t =>
          buildPointFields ks cs
            { p with Time := t, Fields := setPF p.Fields key (.str s) }
      else buildPointFields ks cs { p with Fields := setPF p.Fields key (.str s) }

/-- The pure core of `InfluxDBStore.findSpanPoint` after the query ran:
`rows` is `result.Series`. -/
def findSpanPointFromRows (rows : List Row) : Except String (Option Point) :=
  match rows with
  | [] => .ok none
  | [r] =>
    match r.Values with
    | [] => .error "unexpected empty series"
    | vals :: _ =>
      (buildPointFields r.Columns vals
        { Measurement := "", Tags := [], Fields := [], Time := 0 }).map some
  | _ :: _ :: _ => .error "unexpected multiple series"

/-! ## Trace trees and the assembler -/

/-- Go `Trace`: a span plus its sub-traces (`Sub []*Trace`). -/
inductive Trace where
  | node (span : Span) (sub : List Trace)

def Trace.Span : Trace → Span
  | .node sp _ => sp

def Trace.Sub : Trace → List Trace
  | .node _ subs => subs

def Trace.spanId (t : Trace) : ID := t.Span.ID.Span

def Trace.parentId (t : Trace) : ID := t.Span.ID.Parent

mutual

def decEqTrace : (a b : Trace) → Decidable (a = b)
  | .node s1 l1, .node s2 l2 =>
    match decEq s1 s2 with
    | isTrue h1 =>
      match decEqTraceList l1 l2 with
      | isTrue h2 => isTrue (by rw [h1, h2])
      | isFalse h2 => isFalse (fun he => by cases he; exact h2 rfl)
    | isFalse h1 => isFalse (fun he => by cases he; exact h1 rfl)

def decEqTraceList : (a b : List Trace) → Decidable (a = b)
  | [], [] => isTrue rfl
  | [], _ :: _ => isFalse (by simp)
  | _ :: _, [] => isFalse (by simp)
  | a :: as', b :: bs =>
    match decEqTrace a b with
    | isTrue h1 =>
      match decEqTraceList as' bs with
      | isTrue h2 => isTrue (by rw [h1, h2])
      | isFalse h2 => isFalse (fun he => by cases he; exact h2 rfl)
    | isFalse h1 => isFalse (fun he => by cases he; exact h1 rfl)

end

instance : DecidableEq Trace := decEqTrace

instance {ε α : Type} [DecidableEq ε] [DecidableEq α] : DecidableEq (Except ε α) := fun a b =>
  match a, b with
  | .ok x, .ok y =>
    match decEq x y with
    | isTrue h => isTrue (by rw [h])
    | isFalse h => isFalse (fun he => by cases he; exact h rfl)
  | .error x, .error y =>
    match decEq x y with
    | isTrue h => isTrue (by rw [h])
    | isFalse h => isFalse (fun he => by cases he; exact h rfl)
  | .ok _, .error _ => isFalse (fun he => by cases he)
  | .error _, .ok _ => isFalse (fun he => by cases he)

mutual

/-- Go `findTraceParent(root, child)` fused with the attachment
`t.Sub = append(t.Sub, child)` of `addChildren`: search the tree in
the same preorder (`root` first, then each sub-tree left to right) for
the first node whose span id equals `child`'s parent id, and append
`child` to that node's sub-traces; `none` when no node matches. -/
def insertChild (t c : Trace) : Option Trace :=
  match t with
  | .node sp subs =>
    if sp.ID.Span = c.parentId then some (.node sp (subs ++ [c]))
    else
      match insertChildList subs c with
      | some subs' => some (.node sp subs')
      | none => none

def insertChildList (ts : List Trace) (c : Trace) : Option (List Trace) :=
  match ts with
  | [] => none
  | t :: rest =>
    match insertChild t c with
    | some t' => some (t' :: rest)
    | none =>
      match insertChildList rest c with
      | some rest' => some (t :: rest')
      | none => none

end

/-- One call of the closure `addFn` in `addChildren`: the remaining
children are scanned from the last index down to index 0, each child
whose parent is found in the current tree is attached and removed.  In
`c :: cs` the tail `cs` (the higher indices) is processed first, then
`c` against the grown tree; unattached children keep their relative
order. -/
def addPass (root : Trace) : List Trace → Trace × List Trace
  | [] => (root, [])
  | c :: cs =>
    let pr := addPass root cs
    match insertChild pr.1 c with
    | some root' => (root', pr.2)
    | none => (pr.1, c :: pr.2)

/-- The Go error `errMaxRetries` message. -/
def errMaxRetriesMsg : String := "maximum number of retries"

/-- The retry loop of `addChildren`: stop successfully when no children
remain, fail once `try` reaches `retries` (the original child count),
otherwise run one `addFn` pass.  `fuel` is `retries - try`. -/
def addChildrenAux : Trace → List Trace → Nat → Except String Trace
  | root, [], _ => .ok root
  | _, _ :: _, 0 => .error errMaxRetriesMsg
  | root, c :: cs, f + 1 =>
    let pr := addPass root (c :: cs)
    addChildrenAux pr.1 pr.2 f

/-- Go `addChildren(root, children)`. -/
def addChildren (root : Trace) (children : List Trace) : Except String Trace :=
  addChildrenAux root children children.length

mutual

/-- All spans of a trace tree, root first. -/
def Trace.allSpans : Trace → List Span
  | .node sp subs => sp :: allSpansList subs

def allSpansList : List Trace → List Span
  | [] => []
  | t :: ts => t.allSpans ++ allSpansList ts

end

/-- All span ids occurring in a trace tree (the ids `findTraceParent`
can match a child's parent id against). -/
def Trace.ids (t : Trace) : List ID := t.allSpans.map (fun sp => sp.ID.Span)

def idsList (ts : List Trace) : List ID := (allSpansList ts).map (fun sp => sp.ID.Span)

mutual

/-- The parent/child edges of a trace tree: one pair
`(parent node's span id, child's span)` per attachment. -/
def Trace.edges : Trace → List (ID × Span)
  | .node sp subs => edgesUnder sp.ID.Span subs

def edgesUnder (pid : ID) : List Trace → List (ID × Span)
  | [] => []
  | t :: ts => (pid, t.Span) :: (t.edges ++ edgesUnder pid ts)

end

/-- The spans a list of pending children would contribute, in list
order (`allSpansList` as a bind, convenient for permutation lemmas). -/
def pendingSpans (cs : List Trace) : List Span := cs.flatMap Trace.allSpans

/-- The edges a list of pending children would contribute when each is
attached under the node carrying its parent id. -/
def pendingEdges (cs : List Trace) : List (ID × Span) :=
  cs.flatMap (fun c => (c.parentId, c.Span) :: c.edges)

/-- The attachment order recorded by a run of `addFn` passes: each
child's parent id is already present among the accumulated span ids
when it is attached. -/
def AttachChain (S : List ID) : List Trace → Prop
  | [] => True
  | c :: cs => c.parentId ∈ S ∧ AttachChain (S ++ c.ids) cs

/-- The children form a structure attachable under `root`: some
ordering of them can be attached one by one, each child's parent span
id occurring in the tree built so far (no cycles, no parent ids that
occur nowhere).  This is the claims' "valid tree attachable under
root"; it is invariant under permutation of the list by definition. -/
def Attachable (root : Trace) (cs : List Trace) : Prop :=
  ∃ l, cs.Perm l ∧ AttachChain root.ids l

/-! ## Single-trace retrieval (`InfluxDBStore.Trace`) -/

/-- The zero-valued Go `Trace{}` that `InfluxDBStore.Trace` starts
from. -/
def zeroTrace : Trace := .node ⟨⟨0, 0, 0⟩, []⟩ []

/-- The partition loop of `InfluxDBStore.Trace` over the decoded
spans: a second root span is the `unexpected multiple root spans`
error, the first root span replaces the zero-valued root, every other
span becomes a pending child. -/
def partitionSpans : List Span → Bool → Span → List Trace → Except String (Span × List Trace)
  | [], _, rootSp, children => .ok (rootSp, children)
  | sp :: rest, rootSet, rootSp, children =>
    if sp.ID.isRoot && rootSet then .error "unexpected multiple root spans"
    else if sp.ID.isRoot then partitionSpans rest true sp children
    else partitionSpans rest rootSet rootSp (children ++ [Trace.node sp []])

/-- The pure core of `InfluxDBStore.Trace(id)` after the query ran and
each row was decoded into a span: an empty result is the
`trace not found` error, otherwise the spans are partitioned into the
root and the children pool and the children are attached. -/
def traceFromSpans (spans : List Span) : Except String Trace :=
  match spans with
  | [] => .error "trace not found"
  | _ :: _ =>
    match partitionSpans spans false ⟨⟨0, 0, 0⟩, []⟩ [] with
    | .error e => .error e
    | .ok (rootSp, children) => addChildren (.node rootSp []) children

/-! ## Multi-trace page retrieval (`InfluxDBStore.Traces`) -/

def lookupAssoc {α : Type} : List (ID × α) → ID → Option α
  | [], _ => none
  | (k, v) :: rest, key => if k = key then some v else lookupAssoc rest key

def updateAssoc {α : Type} (m : List (ID × α)) (key : ID) (v : α) : List (ID × α) :=
  m.map (fun kv => if kv.1 = key then (key, v) else kv)

/-- The first loop of `InfluxDBStore.Traces`: build the per-trace-id
cache of root traces; a repeated trace id is the
`duplicated root span` error.  The Go map `tracesCache` is embedded as
an association list in insertion order. -/
def buildTracesCache : List Span → List (ID × Trace) → Except String (List (ID × Trace))
  | [], cache => .ok cache
  | sp :: rest, cache =>
    if (lookupAssoc cache sp.ID.Trace).isSome then .error "duplicated root span"
    else buildTracesCache rest (cache ++ [(sp.ID.Trace, Trace.node sp [])])

/-- The second loop of `InfluxDBStore.Traces`: group each child span
under its root's trace id; a child whose trace id has no cached root
is the `parent not found` error. -/
def groupChildren (cache : List (ID × Trace)) :
    List Span → List (ID × List Trace) → Except String (List (ID × List Trace))
  | [], m => .ok m
  | sp :: rest, m =>
    match lookupAssoc cache sp.ID.Trace with
    | none => .error "parent not found"
    | some _ =>
      let child := Trace.node sp []
      match lookupAssoc m sp.ID.Trace with
      | none => groupChildren cache rest (m ++ [(sp.ID.Trace, [child])])
      | some ts => groupChildren cache rest (updateAssoc m sp.ID.Trace (ts ++ [child]))

/-- The final loop of `InfluxDBStore.Traces`: attach each root's
grouped children (if any) and collect the roots in cache iteration
order. -/
def attachAll : List (ID × Trace) → List (ID × List Trace) → Except String (List Trace)
  | [], _ => .ok []
  | (tid, tr) :: rest, m =>
    match
      (match lookupAssoc m tid with
       | some cs => addChildren tr cs
       | none => .ok tr) with
    | .error e => .error e
    | .ok t => (attachAll rest m).map (fun ts => t :: ts)

/-- The pure core of `InfluxDBStore.Traces()`: `rootSpans` is the
decoded result of the root-page query, `childSpans` the decoded result
of the batched children query (which the source only issues when at
least one root was returned). -/
def tracesFromSpans (rootSpans childSpans : List Span) : Except String (List Trace) :=
  if rootSpans.length = 0 then .ok []
  else
    match buildTracesCache rootSpans [] with
    | .error e => .error e
    | .ok cache =>
      match groupChildren cache childSpans [] with
      | .error e => .error e
      | .ok childrenMap => attachAll cache childrenMap


/-! ## Lemmas: association-list maps -/

theorem updEntry_pair (k : String) (v : FieldValue) (k1 : String) (v1 : FieldValue) :
    updEntry k v (k1, v1) = if k1 = k then (k, v) else (k1, v1) := rfl

theorem lookupPF_cons (k1 : String) (v1 : FieldValue) (rest : pointFields) (key : String) :
    lookupPF ((k1, v1) :: rest) key = if k1 = key then some v1 else lookupPF rest key := rfl

theorem lookupPF_map_set (pf : pointFields) (k : String) (v : FieldValue) (key : String) :
    lookupPF (pf.map (updEntry k v)) key =
      if key = k then (if (lookupPF pf k).isSome then some v else none)
      else lookupPF pf key := by
  induction pf with
  | nil => by_cases h : key = k <;> simp [lookupPF, h]
  | cons kv rest ih =>
    obtain ⟨k1, v1⟩ := kv
    rw [List.map_cons, updEntry_pair]
    by_cases h1 : k1 = k
    · subst h1
      rw [if_pos rfl]
      by_cases h2 : key = k1
      · subst h2
        simp [lookupPF_cons, ih]
      · have h2' : ¬ k1 = key := fun h => h2 h.symm
        simp [lookupPF_cons, h2, h2', ih]
    · rw [if_neg h1]
      by_cases h2 : key = k1
      · subst h2
        simp [lookupPF_cons, h1, ih]
      · have h2' : ¬ k1 = key := fun h => h2 h.symm
        simp [lookupPF_cons, h1, h2, h2', ih]

theorem lookupPF_append (a b : pointFields) (key : String) :
    lookupPF (a ++ b) key =
      match lookupPF a key with
      | some v => some v
      | none => lookupPF b key := by
  induction a with
  | nil => simp [lookupPF]
  | cons kv rest ih =>
    obtain ⟨k1, v1⟩ := kv
    by_cases h : k1 = key
    · simp [lookupPF_cons, h]
    · simp [lookupPF_cons, h, ih]

theorem lookupPF_setPF (pf : pointFields) (k : String) (v : FieldValue) (key : String) :
    lookupPF (setPF pf k v) key = if key = k then some v else lookupPF pf key := by
  unfold setPF
  by_cases h : (lookupPF pf k).isSome
  · rw [if_pos h, lookupPF_map_set, if_pos h]
  · rw [if_neg h, lookupPF_append]
    rw [Option.not_isSome_iff_eq_none] at h
    by_cases h2 : key = k
    · subst h2
      simp [h, lookupPF]
    · have h2' : ¬ k = key := fun hh => h2 hh.symm
      cases hl : lookupPF pf key with
      | some v' => simp [h2]
      | none => simp [h2, h2', lookupPF]

theorem keys_setPF_of_present (pf : pointFields) (k : String) (v : FieldValue)
    (h : (lookupPF pf k).isSome) : (setPF pf k v).map Prod.fst = pf.map Prod.fst := by
  unfold setPF
  rw [if_pos h, List.map_map]
  apply List.map_congr_left
  intro kv _
  obtain ⟨k1, v1⟩ := kv
  by_cases hk : k1 = k <;> simp [Function.comp, updEntry_pair, hk]

theorem lookupPF_eq_none_iff (pf : pointFields) (key : String) :
    lookupPF pf key = none ↔ key ∉ pf.map Prod.fst := by
  induction pf with
  | nil => simp [lookupPF]
  | cons kv rest ih =>
    obtain ⟨k1, v1⟩ := kv
    by_cases h : k1 = key
    · simp [lookupPF_cons, h]
    · have h' : ¬ key = k1 := fun hh => h hh.symm
      simp [lookupPF_cons, h, h', ih]

theorem NodupKeys_setPF (pf : pointFields) (k : String) (v : FieldValue)
    (h : NodupKeys pf) : NodupKeys (setPF pf k v) := by
  unfold NodupKeys
  by_cases hp : (lookupPF pf k).isSome
  · rw [keys_setPF_of_present pf k v hp]
    exact h
  · unfold setPF
    rw [if_neg hp]
    rw [Option.not_isSome_iff_eq_none, lookupPF_eq_none_iff] at hp
    simp only [List.map_append, List.map_cons, List.map_nil]
    refine List.Nodup.append h (List.nodup_singleton k) ?_
    intro x hx hk
    rw [List.mem_singleton] at hk
    subst hk
    exact hp hx

theorem NodupKeys_cons {k1 : String} {v1 : FieldValue} {rest : pointFields}
    (h : NodupKeys ((k1, v1) :: rest)) : NodupKeys rest ∧ k1 ∉ rest.map Prod.fst := by
  unfold NodupKeys at h ⊢
  rw [List.map_cons, List.nodup_cons] at h
  exact ⟨h.2, h.1⟩

theorem wo_fold (pf : pointFields) (acc : pointFields) (key : String) (h : NodupKeys pf) :
    lookupPF (pf.foldl woStep acc) key =
      match lookupPF pf key with
      | some (.str s) => if s = "" then lookupPF acc key else some (.str s)
      | some .other => some .other
      | none => lookupPF acc key := by
  induction pf generalizing acc with
  | nil => simp [lookupPF]
  | cons kv rest ih =>
    obtain ⟨k1, v1⟩ := kv
    obtain ⟨hnd, hni⟩ := NodupKeys_cons h
    rw [List.foldl_cons, ih _ hnd]
    by_cases hk : k1 = key
    · subst hk
      have hrest : lookupPF rest k1 = none := (lookupPF_eq_none_iff rest k1).mpr hni
      rw [hrest, lookupPF_cons, if_pos rfl]
      cases v1 with
      | str s =>
        by_cases hs : s = ""
        · simp [woStep, hs]
        · simp [woStep, hs, lookupPF_setPF]
      | other => simp [woStep, lookupPF_setPF]
    · rw [lookupPF_cons, if_neg hk]
      have hk' : ¬ key = k1 := fun hh => hk hh.symm
      have hacc : lookupPF (woStep acc (k1, v1)) key = lookupPF acc key := by
        cases v1 with
        | str s =>
          by_cases hs : s = ""
          · simp [woStep, hs]
          · simp [woStep, hs, lookupPF_setPF, hk']
        | other => simp [woStep, lookupPF_setPF, hk']
      rw [hacc]

theorem wo_lookup (pf : pointFields) (key : String) (h : NodupKeys pf) :
    lookupPF (withoutEmptyFields pf) key =
      match lookupPF pf key with
      | some (.str s) => if s = "" then none else some (.str s)
      | some .other => some .other
      | none => none := by
  unfold withoutEmptyFields
  rw [wo_fold pf [] key h]
  cases lookupPF pf key with
  | some v =>
    cases v with
    | str s => by_cases hs : s = "" <;> simp [hs, lookupPF]
    | other => rfl
  | none => simp [lookupPF]

theorem NodupKeys_wo_fold (pf acc : pointFields) (h : NodupKeys acc) :
    NodupKeys (pf.foldl woStep acc) := by
  induction pf generalizing acc with
  | nil => exact h
  | cons kv rest ih =>
    rw [List.foldl_cons]
    apply ih
    obtain ⟨k1, v1⟩ := kv
    cases v1 with
    | str s =>
      by_cases hs : s = ""
      · simpa [woStep, hs] using h
      · simpa [woStep, hs] using NodupKeys_setPF acc k1 (.str s) h
    | other => simpa [woStep] using NodupKeys_setPF acc k1 .other h

theorem NodupKeys_wo (pf : pointFields) : NodupKeys (withoutEmptyFields pf) :=
  NodupKeys_wo_fold pf [] List.nodup_nil

theorem ext_fold (src dst : pointFields) (key : String) (h : NodupKeys src) :
    lookupPF (src.foldl extStep dst) key =
      match lookupPF src key with
      | some v => if (lookupPF dst key).isSome then some v else none
      | none => lookupPF dst key := by
  induction src generalizing dst with
  | nil => simp [lookupPF]
  | cons kv rest ih =>
    obtain ⟨k1, v1⟩ := kv
    obtain ⟨hnd, hni⟩ := NodupKeys_cons h
    rw [List.foldl_cons, ih _ hnd]
    by_cases hk : k1 = key
    · subst hk
      have hrest : lookupPF rest k1 = none := (lookupPF_eq_none_iff rest k1).mpr hni
      rw [hrest, lookupPF_cons, if_pos rfl]
      by_cases hd : (lookupPF dst k1).isSome
      · simp [extStep, hd, lookupPF_setPF]
      · rw [Option.not_isSome_iff_eq_none] at hd
        simp [extStep, hd]
    · rw [lookupPF_cons, if_neg hk]
      have hk' : ¬ key = k1 := fun hh => hk hh.symm
      have hdst : lookupPF (extStep dst (k1, v1)) key = lookupPF dst key := by
        by_cases hd : (lookupPF dst k1).isSome
        · simp [extStep, hd, lookupPF_setPF, hk']
        · simp [extStep, hd]
      rw [hdst]

theorem ext_lookup (dst src : pointFields) (key : String) (h : NodupKeys src) :
    lookupPF (extendFields dst src) key =
      match lookupPF src key with
      | some v => if (lookupPF dst key).isSome then some v else none
      | none => lookupPF dst key :=
  ext_fold src dst key h

/-! ## Claim C1: the old-wins merge of `Collect` on an existing record -/

/-- The rewrite branch of `collectPoint` (the Go `p != nil` branch of
`Collect`), factored out for reasoning. -/
def collectRewriteResult (id : SpanID) (anns : List Ann) (p : Point) : Except String Point :=
  match mergeSchemasField (some (.str (schemasFromAnnotations anns)))
      (lookupPF p.Fields schemasFieldName) with
  | .error e => .error e
  | .ok schemas =>
    .ok { Measurement := spanMeasurementName, Tags := spanTags id,
          Fields := setPF (extendFields (annFields anns) (withoutEmptyFields p.Fields))
            schemasFieldName (.str schemas),
          Time := p.Time }

theorem collectPoint_some_eq (id : SpanID) (anns : List Ann) (p : Point) (now : Nat) :
    collectPoint id anns (some p) now = collectRewriteResult id anns p := rfl

theorem collectPoint_rewrite_ok (id : SpanID) (anns : List Ann) (p : Point) (now : Nat)
    (pt : Point) (h : collectPoint id anns (some p) now = .ok pt) :
    ∃ schemas,
      mergeSchemasField (some (.str (schemasFromAnnotations anns)))
        (lookupPF p.Fields schemasFieldName) = .ok schemas ∧
      pt = { Measurement := spanMeasurementName, Tags := spanTags id,
             Fields := setPF (extendFields (annFields anns) (withoutEmptyFields p.Fields))
               schemasFieldName (.str schemas),
             Time := p.Time } := by
  rw [collectPoint_some_eq] at h
  unfold collectRewriteResult at h
  split at h
  next e heq => simp at h
  next schemas heq =>
    refine ⟨schemas, heq, ?_⟩
    cases h
    rfl

/-- C1: when `Collect` rewrites an existing record, for every annotation
key other than the synthetic manifest key: a key present in both the new
submission and the stored record with a non-empty stored value gets the
stored value (old wins); a key present only in the new submission, or
whose stored value is the empty string, gets the newly submitted value;
a key present only in the stored record does not appear in the merged
fields.  `NodupKeys` reflects that a Go map has distinct keys. -/
theorem C1_collect_merge_old_wins (id : SpanID) (anns : List Ann) (p : Point) (now : Nat)
    (k : String) (hk : k ≠ schemasFieldName) (hnd : NodupKeys p.Fields)
    (pt : Point) (hpt : collectPoint id anns (some p) now = .ok pt) :
    (∀ w : FieldValue, (lookupPF (annFields anns) k).isSome →
        lookupPF p.Fields k = some w → w ≠ .str "" → lookupPF pt.Fields k = some w) ∧
    (∀ v : FieldValue, lookupPF (annFields anns) k = some v →
        (lookupPF p.Fields k = none ∨ lookupPF p.Fields k = some (.str "")) →
        lookupPF pt.Fields k = some v) ∧
    (lookupPF (annFields anns) k = none → lookupPF pt.Fields k = none) := by
  obtain ⟨schemas, _, hpt'⟩ := collectPoint_rewrite_ok id anns p now pt hpt
  subst hpt'
  simp only [lookupPF_setPF, if_neg hk]
  rw [ext_lookup _ _ _ (NodupKeys_wo p.Fields), wo_lookup _ _ hnd]
  refine ⟨?_, ?_, ?_⟩
  · intro w hnew hold hne
    rw [hold]
    cases w with
    | str s =>
      have hs : ¬ s = "" := fun hh => hne (by rw [hh])
      simp [hs, hnew]
    | other => simp [hnew]
  · intro v hnew hold
    rcases hold with hold | hold <;> rw [hold] <;> simp [hnew]
  · intro hnew
    rw [hnew]
    cases hold : lookupPF p.Fields k with
    | some w =>
      cases w with
      | str s => by_cases hs : s = "" <;> simp [hs]
      | other => simp
    | none => simp

/-- Witness for C1: the spec's own scenario, `{"k": "v1"}` stored with
manifest `"S"`, a second Collect submitting `{"k": "v2"}`; the written
field value for `"k"` remains `"v1"`. -/
theorem C1_collect_merge_old_wins_witness :
    collectPoint ⟨1, 2, 0⟩ [⟨"k", "v2"⟩]
        (some ⟨"spans", [], [("k", .str "v1"), ("schemas", .str "S")], 5⟩) 7 =
      .ok ⟨spanMeasurementName, spanTags ⟨1, 2, 0⟩,
        [("k", .str "v1"), ("schemas", .str "S")], 5⟩ ∧
    lookupPF [("k", FieldValue.str "v1"), ("schemas", FieldValue.str "S")] "k" =
      some (.str "v1") := by
  constructor
  · rfl
  · exact (C1_collect_merge_old_wins ⟨1, 2, 0⟩ [⟨"k", "v2"⟩]
      ⟨"spans", [], [("k", .str "v1"), ("schemas", .str "S")], 5⟩ 7 "k"
      (by decide) (by unfold NodupKeys; decide) _ (by rfl)).1 (.str "v1")
      (by decide) (by decide) (by decide)

/-! ## Claim C3: `mergeSchemasField` unions the split elements -/

/-- The elements that a string-or-absent manifest input contributes to
the merge: the separator-split of a non-empty string, nothing from an
absent or empty input (the statement-side reading of the claim). -/
def manifestElems : Option FieldValue → List String
  | some (.str f) => if f = "" then [] else goSplit f schemasFieldSeparator
  | _ => []

/-- A merge input is a string or absent (Go: a string or a nil
interface), the claim's precondition. -/
def isStrOrNone : Option FieldValue → Prop
  | some .other => False
  | _ => True

theorem mem_dedupStep (a : List String) (s x : String) :
    x ∈ dedupStep a s ↔ x ∈ a ∨ x = s := by
  unfold dedupStep
  by_cases h : a.contains s
  · rw [if_pos h]
    have hs : s ∈ a := by simpa using h
    constructor
    · exact fun hx => Or.inl hx
    · rintro (hx | rfl)
      · exact hx
      · exact hs
  · rw [if_neg h]
    simp

theorem nodup_dedupStep (a : List String) (s : String) (h : a.Nodup) :
    (dedupStep a s).Nodup := by
  unfold dedupStep
  by_cases hc : a.contains s
  · rwa [if_pos hc]
  · rw [if_neg hc]
    have hs : s ∉ a := by simpa using hc
    refine List.Nodup.append h (List.nodup_singleton s) ?_
    intro x hx hxs
    rw [List.mem_singleton] at hxs
    subst hxs
    exact hs hx

theorem mem_foldl_dedupStep (l : List String) (acc : List String) (x : String) :
    x ∈ l.foldl dedupStep acc ↔ x ∈ acc ∨ x ∈ l := by
  induction l generalizing acc with
  | nil => simp
  | cons s rest ih =>
    rw [List.foldl_cons, ih, mem_dedupStep]
    constructor
    · rintro ((hx | rfl) | hx)
      · exact Or.inl hx
      · exact Or.inr (List.mem_cons_self _ _)
      · exact Or.inr (List.mem_cons_of_mem _ hx)
    · rintro (hx | hx)
      · exact Or.inl (Or.inl hx)
      · rcases List.mem_cons.mp hx with rfl | hx
        · exact Or.inl (Or.inr rfl)
        · exact Or.inr hx

theorem nodup_foldl_dedupStep (l : List String) (acc : List String) (h : acc.Nodup) :
    (l.foldl dedupStep acc).Nodup := by
  induction l generalizing acc with
  | nil => exact h
  | cons s rest ih => exact ih _ (nodup_dedupStep acc s h)

theorem mem_addSchemasOf (acc : List String) (f : String) (x : String) :
    x ∈ addSchemasOf acc f ↔
      x ∈ acc ∨ (f ≠ "" ∧ x ∈ goSplit f schemasFieldSeparator) := by
  unfold addSchemasOf
  by_cases hf : f = ""
  · simp [hf]
  · rw [if_neg hf, mem_foldl_dedupStep]
    simp [hf]

theorem nodup_addSchemasOf (acc : List String) (f : String) (h : acc.Nodup) :
    (addSchemasOf acc f).Nodup := by
  unfold addSchemasOf
  by_cases hf : f = ""
  · rwa [if_pos hf]
  · rw [if_neg hf]
    exact nodup_foldl_dedupStep _ _ h

theorem mergeSchemasField_ok_char (new old : Option FieldValue)
    (hn : isStrOrNone new) (ho : isStrOrNone old) :
    ∃ l, mergeSchemasField new old = .ok (joinSep schemasFieldSeparator l) ∧ l.Nodup ∧
      ∀ s, s ∈ l ↔ s ∈ manifestElems new ∨ s ∈ manifestElems old := by
  have hchar : ∀ f g : String,
      ∃ l, mergeSchemasField (some (.str f)) (some (.str g)) =
          .ok (joinSep schemasFieldSeparator l) ∧ l.Nodup ∧
        ∀ s, s ∈ l ↔ s ∈ manifestElems (some (.str f)) ∨ s ∈ manifestElems (some (.str g)) := by
    intro f g
    refine ⟨addSchemasOf (addSchemasOf [] f) g, rfl, ?_, ?_⟩
    · exact nodup_addSchemasOf _ _ (nodup_addSchemasOf _ _ List.nodup_nil)
    · intro s
      rw [mem_addSchemasOf, mem_addSchemasOf]
      unfold manifestElems
      by_cases hf : f = "" <;> by_cases hg : g = "" <;> simp [hf, hg]
  cases new with
  | none =>
    cases old with
    | none => exact ⟨[], rfl, List.nodup_nil, by simp [manifestElems]⟩
    | some v =>
      cases v with
      | str g =>
        refine ⟨addSchemasOf [] g, rfl, nodup_addSchemasOf _ _ List.nodup_nil, ?_⟩
        intro s
        rw [mem_addSchemasOf]
        unfold manifestElems
        by_cases hg : g = "" <;> simp [hg]
      | other => exact absurd ho (by simp [isStrOrNone])
  | some v =>
    cases v with
    | str f =>
      cases old with
      | none =>
        refine ⟨addSchemasOf [] f, rfl, nodup_addSchemasOf _ _ List.nodup_nil, ?_⟩
        intro s
        rw [mem_addSchemasOf]
        unfold manifestElems
        by_cases hf : f = "" <;> simp [hf]
      | some w =>
        cases w with
        | str g => exact hchar f g
        | other => exact absurd ho (by simp [isStrOrNone])
    | other => exact absurd hn (by simp [isStrOrNone])

theorem mergeSchemasField_ok_of_str (f : String) (old : Option FieldValue) (r : String)
    (h : mergeSchemasField (some (.str f)) old = .ok r) : isStrOrNone old := by
  cases old with
  | none => trivial
  | some w =>
    cases w with
    | str g => trivial
    | other =>
      simp [mergeSchemasField, collectStrFields, Except.map] at h

/-- C3: `mergeSchemasField` on two string-or-absent inputs succeeds
and returns the separator-join of a duplicate-free list whose element
set is the union of the separator-split elements of the two inputs
(an absent or empty input contributing nothing); consequently the
manifest written by a rewriting `Collect` carries exactly the union of
the newly submitted schema names and the previously stored manifest's
elements — in particular a superset of each. -/
theorem C3_merge_schemas_union :
    (∀ new old, isStrOrNone new → isStrOrNone old →
      ∃ l, mergeSchemasField new old = .ok (joinSep schemasFieldSeparator l) ∧ l.Nodup ∧
        ∀ s, s ∈ l ↔ s ∈ manifestElems new ∨ s ∈ manifestElems old) ∧
    (∀ id anns p now pt, collectPoint id anns (some p) now = .ok pt →
      ∃ l, lookupPF pt.Fields schemasFieldName =
          some (.str (joinSep schemasFieldSeparator l)) ∧ l.Nodup ∧
        ∀ s, s ∈ l ↔ s ∈ manifestElems (some (.str (schemasFromAnnotations anns))) ∨
          s ∈ manifestElems (lookupPF p.Fields schemasFieldName)) := by
  constructor
  · exact fun new old hn ho => mergeSchemasField_ok_char new old hn ho
  · intro id anns p now pt hpt
    obtain ⟨schemas, hms, hpt'⟩ := collectPoint_rewrite_ok id anns p now pt hpt
    have ho : isStrOrNone (lookupPF p.Fields schemasFieldName) :=
      mergeSchemasField_ok_of_str _ _ _ hms
    obtain ⟨l, hl, hnd, hmem⟩ :=
      mergeSchemasField_ok_char (some (.str (schemasFromAnnotations anns)))
        (lookupPF p.Fields schemasFieldName) trivial ho
    rw [hms] at hl
    cases hl
    refine ⟨l, ?_, hnd, hmem⟩
    subst hpt'
    simp [lookupPF_setPF]

/-- Witness for C3: merging the manifests `"A,B"` and `"B,C"`. -/
theorem C3_merge_schemas_union_witness :
    mergeSchemasField (some (.str "A,B")) (some (.str "B,C")) = .ok "A,B,C" ∧
    (∃ l, mergeSchemasField (some (.str "A,B")) (some (.str "B,C")) =
        .ok (joinSep schemasFieldSeparator l) ∧ l.Nodup ∧
      ∀ s, s ∈ l ↔ s ∈ manifestElems (some (.str "A,B")) ∨
        s ∈ manifestElems (some (.str "B,C"))) :=
  ⟨by decide, C3_merge_schemas_union.1 (some (.str "A,B")) (some (.str "B,C")) trivial trivial⟩

/-! ## Claims C8 and C9: the read-side schema filter -/

theorem schemaExists_iff (x : String) (l : List String) :
    schemaExists x l = true ↔ x ∈ l := by
  induction l with
  | nil => simp [schemaExists]
  | cons s rest ih =>
    by_cases h : x = s
    · simp [schemaExists, h]
    · simp [schemaExists, h, ih]

theorem findSchemasAnn_eq_none_iff (anns : List Ann) :
    findSchemasAnn anns = none ↔ ∀ a ∈ anns, a.Key ≠ schemasFieldName := by
  induction anns with
  | nil => simp [findSchemasAnn]
  | cons b rest ih =>
    by_cases h : b.Key = schemasFieldName
    · simp [findSchemasAnn, h]
    · simp [findSchemasAnn, h, ih]

theorem mem_filterSchemasLoop (schemas : List String) (anns : List Ann) (a : Ann) :
    a ∈ filterSchemasLoop schemas anns ↔
      a ∈ anns ∧ (hasPre schemaPre a.Key = true →
        schemaExists (stripPre schemaPre a.Key) schemas = true) := by
  induction anns with
  | nil => simp [filterSchemasLoop]
  | cons b rest ih =>
    unfold filterSchemasLoop
    by_cases hb : hasPre schemaPre b.Key
    · by_cases he : schemaExists (stripPre schemaPre b.Key) schemas
      · rw [if_pos hb, if_pos he]
        constructor
        · intro hmem
          rcases List.mem_cons.mp hmem with rfl | hmem
          · exact ⟨List.mem_cons_self _ _, fun _ => he⟩
          · obtain ⟨h1, h2⟩ := ih.mp hmem
            exact ⟨List.mem_cons_of_mem _ h1, h2⟩
        · rintro ⟨hmem, hcond⟩
          rcases List.mem_cons.mp hmem with rfl | hmem
          · exact List.mem_cons_self _ _
          · exact List.mem_cons_of_mem _ (ih.mpr ⟨hmem, hcond⟩)
      · rw [if_pos hb, if_neg he]
        rw [ih]
        constructor
        · rintro ⟨h1, h2⟩
          exact ⟨List.mem_cons_of_mem _ h1, h2⟩
        · rintro ⟨hmem, hcond⟩
          rcases List.mem_cons.mp hmem with rfl | hmem
          · exact absurd (hcond hb) he
          · exact ⟨hmem, hcond⟩
    · rw [if_neg hb]
      constructor
      · intro hmem
        rcases List.mem_cons.mp hmem with rfl | hmem
        · refine ⟨List.mem_cons_self _ _, fun hc => absurd hc hb⟩
        · obtain ⟨h1, h2⟩ := ih.mp hmem
          exact ⟨List.mem_cons_of_mem _ h1, h2⟩
      · rintro ⟨hmem, hcond⟩
        rcases List.mem_cons.mp hmem with rfl | hmem
        · exact List.mem_cons_self _ _
        · exact List.mem_cons_of_mem _ (ih.mpr ⟨hmem, hcond⟩)

/-- C8: when the decoded annotation list carries a manifest
annotation (key `"schemas"`), `filterSchemas` keeps a schema-prefixed
annotation iff its prefix-stripped key appears among the
separator-split elements of the manifest annotation's value, and keeps
every non-prefixed annotation unconditionally. -/
theorem C8_filter_schemas_manifest (anns : List Ann) (m : Ann)
    (hm : findSchemasAnn anns = some m) :
    ∃ out, filterSchemas anns = some out ∧
      ∀ a, a ∈ out ↔ a ∈ anns ∧ (hasPre schemaPre a.Key = true →
        stripPre schemaPre a.Key ∈ goSplit m.Value schemasFieldSeparator) := by
  refine ⟨filterSchemasLoop (goSplit m.Value schemasFieldSeparator) anns, ?_, ?_⟩
  · unfold filterSchemas
    rw [hm]
  · intro a
    rw [mem_filterSchemasLoop]
    constructor
    · rintro ⟨h1, h2⟩
      exact ⟨h1, fun hc => (schemaExists_iff _ _).mp (h2 hc)⟩
    · rintro ⟨h1, h2⟩
      exact ⟨h1, fun hc => (schemaExists_iff _ _).mpr (h2 hc)⟩

/-- Witness for C8: the spec's empty-field scenario — the manifest
lists only `HTTPClient`, so the `HTTPServer`-prefixed annotation is
dropped while the `HTTPClient`-prefixed and unprefixed ones are kept. -/
theorem C8_filter_schemas_manifest_witness :
    filterSchemas [⟨"schemas", "HTTPClient"⟩, ⟨"_schema:HTTPServer", ""⟩,
        ⟨"_schema:HTTPClient", "GET"⟩, ⟨"x", "y"⟩] =
      some [⟨"schemas", "HTTPClient"⟩, ⟨"_schema:HTTPClient", "GET"⟩, ⟨"x", "y"⟩] ∧
    (∃ out, filterSchemas [⟨"schemas", "HTTPClient"⟩, ⟨"_schema:HTTPServer", ""⟩,
        ⟨"_schema:HTTPClient", "GET"⟩, ⟨"x", "y"⟩] = some out ∧
      ∀ a, a ∈ out ↔ a ∈ [(⟨"schemas", "HTTPClient"⟩ : Ann), ⟨"_schema:HTTPServer", ""⟩,
          ⟨"_schema:HTTPClient", "GET"⟩, ⟨"x", "y"⟩] ∧
        (hasPre schemaPre a.Key = true →
          stripPre schemaPre a.Key ∈
            goSplit (Ann.Value ⟨"schemas", "HTTPClient"⟩) schemasFieldSeparator)) :=
  ⟨by decide,
   C8_filter_schemas_manifest _ ⟨"schemas", "HTTPClient"⟩ (by decide)⟩

/-- C9: `filterSchemas` is total (returns a filtered list) exactly when
a `"schemas"`-keyed manifest annotation is present; on input without
one, `findSchemasAnnotation` returns nil and the Go code dereferences
it — a nil-pointer panic, embedded as `none`. -/
theorem C9_filter_schemas_panic (anns : List Ann) :
    (filterSchemas anns = none ↔ findSchemasAnn anns = none) ∧
    (findSchemasAnn anns = none ↔ ∀ a ∈ anns, a.Key ≠ schemasFieldName) := by
  constructor
  · unfold filterSchemas
    cases h : findSchemasAnn anns <;> simp
  · exact findSchemasAnn_eq_none_iff anns

/-! ## Claim C6: the fresh-record manifest is a raw (undeduplicated) join -/

/-- The spec-side description of the fresh manifest content: the
prefix-stripped schema-prefixed keys of the submission, in order, raw
(no deduplication). -/
def rawSchemaNames (anns : List Ann) : List String :=
  (anns.filter (fun a => hasPre schemaPre a.Key)).map (fun a => stripPre schemaPre a.Key)

theorem schemas_foldl_eq (anns : List Ann) (acc : List String) :
    anns.foldl
      (fun schemas ann =>
        if hasPre schemaPre ann.Key then schemas ++ [stripPre schemaPre ann.Key]
        else schemas) acc = acc ++ rawSchemaNames anns := by
  induction anns generalizing acc with
  | nil => simp [rawSchemaNames]
  | cons a rest ih =>
    rw [List.foldl_cons]
    by_cases h : hasPre schemaPre a.Key
    · rw [if_pos h, ih]
      simp [rawSchemaNames, h]
    · rw [if_neg h, ih]
      simp [rawSchemaNames, h]

/-- The fresh-record point built by the `p == nil` branch of
`Collect`. -/
def collectFreshResult (id : SpanID) (anns : List Ann) (now : Nat) : Point :=
  { Measurement := spanMeasurementName, Tags := spanTags id,
    Fields := setPF (annFields anns) schemasFieldName (.str (schemasFromAnnotations anns)),
    Time := now }

theorem collectPoint_none_eq (id : SpanID) (anns : List Ann) (now : Nat) :
    collectPoint id anns none now = .ok (collectFreshResult id anns now) := rfl

theorem schemasFromAnnotations_eq (anns : List Ann) :
    schemasFromAnnotations anns = joinSep schemasFieldSeparator (rawSchemaNames anns) := by
  unfold schemasFromAnnotations
  rw [schemas_foldl_eq anns []]
  rfl

/-- Counterexample for C6: a fresh Collect submitting the same
schema-prefixed key twice writes the manifest `"A,A"`, in which the
schema name `A` appears more than once — the written manifest is not
deduplicated, contrary to the claim. -/
theorem C6_counterexample :
    (collectPoint ⟨1, 2, 0⟩ [⟨"_schema:A", "x"⟩, ⟨"_schema:A", "y"⟩] none 7).map
        (fun p => lookupPF p.Fields schemasFieldName) = .ok (some (.str "A,A")) ∧
    ¬ (goSplit "A,A" schemasFieldSeparator).Nodup := by
  constructor
  · decide
  · decide

/-- C6 (amended): for a fresh record, the schema-manifest field written
by `Collect` equals the separator-join of the schema-prefix-stripped
keys of the submitted annotations in submission order, with duplicates
retained (no deduplication happens on the fresh-write path; only a
later rewrite deduplicates through `mergeSchemasField`). -/
theorem C6_fresh_manifest_raw_join (id : SpanID) (anns : List Ann) (now : Nat) (pt : Point)
    (h : collectPoint id anns none now = .ok pt) :
    lookupPF pt.Fields schemasFieldName =
      some (.str (joinSep schemasFieldSeparator (rawSchemaNames anns))) := by
  rw [collectPoint_none_eq] at h
  cases h
  simp [collectFreshResult, lookupPF_setPF, schemasFromAnnotations_eq]

/-- Witness for C6 (amended): the duplicate-key submission writes the
raw join `"A,A"`. -/
theorem C6_fresh_manifest_raw_join_witness :
    collectPoint ⟨1, 2, 0⟩ [⟨"_schema:A", "x"⟩, ⟨"_schema:A", "y"⟩] none 7 =
      .ok ⟨spanMeasurementName, spanTags ⟨1, 2, 0⟩,
        [("_schema:A", .str "y"), ("schemas", .str "A,A")], 7⟩ ∧
    lookupPF [("_schema:A", FieldValue.str "y"), ("schemas", FieldValue.str "A,A")]
        schemasFieldName =
      some (.str (joinSep schemasFieldSeparator
        (rawSchemaNames [⟨"_schema:A", "x"⟩, ⟨"_schema:A", "y"⟩]))) := by
  constructor
  · rfl
  · exact C6_fresh_manifest_raw_join ⟨1, 2, 0⟩ [⟨"_schema:A", "x"⟩, ⟨"_schema:A", "y"⟩] 7 _
      (by rfl)

/-! ## Claim C7: the rewrite keeps the stored timestamp -/

/-- Counterexample for C7: rewriting an existing record whose stored
point carries time `5` at a Collect whose current time is `7` writes
time `5`, not the current time — the timestamp is retained, not
refreshed. -/
theorem C7_counterexample :
    (collectPoint ⟨1, 2, 0⟩ [] (some ⟨"spans", [], [], 5⟩) 7).map Point.Time = .ok 5 ∧
    (5 : Nat) ≠ 7 := by
  constructor
  · decide
  · decide

/-- C7 (amended): a rewriting `Collect` writes the point with the time
produced by `findSpanPoint` from the stored record (`p.Time`,
unchanged); only a fresh record is written with the current time
`now`. -/
theorem C7_rewrite_keeps_stored_time :
    (∀ id anns p now pt, collectPoint id anns (some p) now = .ok pt → pt.Time = p.Time) ∧
    (∀ id anns now pt, collectPoint id anns none now = .ok pt → pt.Time = now) := by
  constructor
  · intro id anns p now pt h
    obtain ⟨schemas, _, hpt⟩ := collectPoint_rewrite_ok id anns p now pt h
    rw [hpt]
  · intro id anns now pt h
    rw [collectPoint_none_eq] at h
    cases h
    rfl

/-- Witness for C7 (amended): the rewrite at current time `7` keeps the
stored time `5`. -/
theorem C7_rewrite_keeps_stored_time_witness :
    collectPoint ⟨1, 2, 0⟩ [] (some ⟨"spans", [], [], 5⟩) 7 =
      .ok ⟨spanMeasurementName, spanTags ⟨1, 2, 0⟩, [("schemas", .str "")], 5⟩ ∧
    Point.Time ⟨spanMeasurementName, spanTags ⟨1, 2, 0⟩, [("schemas", .str "")], 5⟩ =
      Point.Time ⟨"spans", [], [], 5⟩ := by
  constructor
  · rfl
  · exact C7_rewrite_keeps_stored_time.1 ⟨1, 2, 0⟩ [] ⟨"spans", [], [], 5⟩ 7 _ (by rfl)

/-! ## Claim C10: an empty root page is a successful empty result -/

/-- C10: when the root-page query of `Traces()` returns no root
records, the empty trace list is returned with no error (Go returns
the non-nil empty slice `make([]*Trace, 0)`; list emptiness is the
observable content here, the nil/empty slice distinction has no
counterpart in the embedding).  The children query is never reached. -/
theorem C10_traces_empty_page (childSpans : List Span) :
    tracesFromSpans [] childSpans = .ok [] := rfl

/-! ## Assembler lemmas: spans, ids and edges of trees -/

theorem allSpans_node (sp : Span) (subs : List Trace) :
    (Trace.node sp subs).allSpans = sp :: allSpansList subs := by
  rw [Trace.allSpans]

theorem allSpansList_nil : allSpansList [] = [] := rfl

theorem allSpansList_cons (t : Trace) (ts : List Trace) :
    allSpansList (t :: ts) = t.allSpans ++ allSpansList ts := by
  rw [allSpansList]

theorem allSpansList_append (xs ys : List Trace) :
    allSpansList (xs ++ ys) = allSpansList xs ++ allSpansList ys := by
  induction xs with
  | nil => simp [allSpansList_nil]
  | cons t ts ih => simp [allSpansList_cons, ih]

theorem ids_node (sp : Span) (subs : List Trace) :
    (Trace.node sp subs).ids = sp.ID.Span :: idsList subs := by
  simp [Trace.ids, idsList, allSpans_node]

theorem idsList_nil : idsList [] = [] := rfl

theorem idsList_cons (t : Trace) (ts : List Trace) :
    idsList (t :: ts) = t.ids ++ idsList ts := by
  simp [Trace.ids, idsList, allSpansList_cons]

theorem mem_idsList (ts : List Trace) (x : ID) :
    x ∈ idsList ts ↔ ∃ t ∈ ts, x ∈ t.ids := by
  induction ts with
  | nil => simp [idsList_nil]
  | cons t rest ih => simp [idsList_cons, ih]

theorem edges_node (sp : Span) (subs : List Trace) :
    (Trace.node sp subs).edges = edgesUnder sp.ID.Span subs := by
  rw [Trace.edges]

theorem edgesUnder_nil (pid : ID) : edgesUnder pid [] = [] := rfl

theorem edgesUnder_cons (pid : ID) (t : Trace) (ts : List Trace) :
    edgesUnder pid (t :: ts) = (pid, t.Span) :: (t.edges ++ edgesUnder pid ts) := by
  rw [edgesUnder]

theorem edgesUnder_append (pid : ID) (xs ys : List Trace) :
    edgesUnder pid (xs ++ ys) = edgesUnder pid xs ++ edgesUnder pid ys := by
  induction xs with
  | nil => simp [edgesUnder_nil]
  | cons t ts ih => simp [edgesUnder_cons, ih]

theorem pendingSpans_eq (ts : List Trace) : pendingSpans ts = allSpansList ts := by
  induction ts with
  | nil => simp [pendingSpans, allSpansList_nil]
  | cons t rest ih => simp [pendingSpans, allSpansList_cons] at ih ⊢; simp [ih]

theorem pendingEdges_nil : pendingEdges [] = [] := rfl

theorem pendingEdges_cons (t : Trace) (ts : List Trace) :
    pendingEdges (t :: ts) = (t.parentId, t.Span) :: (t.edges ++ pendingEdges ts) := by
  simp [pendingEdges]

theorem pendingEdges_append (xs ys : List Trace) :
    pendingEdges (xs ++ ys) = pendingEdges xs ++ pendingEdges ys := by
  simp [pendingEdges]

theorem Span_insertChild (t c : Trace) (t' : Trace) (h : insertChild t c = some t') :
    t'.Span = t.Span := by
  cases t with
  | node sp subs =>
    unfold insertChild at h
    by_cases hid : sp.ID.Span = c.parentId
    · rw [if_pos hid] at h
      cases h
      rfl
    · rw [if_neg hid] at h
      cases hl : insertChildList subs c with
      | none => rw [hl] at h; cases h
      | some subs' =>
        rw [hl] at h
        cases h
        rfl

mutual

theorem insertChild_spans : ∀ (t c t' : Trace), insertChild t c = some t' →
    t'.allSpans.Perm (t.allSpans ++ c.allSpans)
  | .node sp subs, c, t', h => by
    unfold insertChild at h
    by_cases hid : sp.ID.Span = c.parentId
    · rw [if_pos hid] at h
      cases h
      simp [allSpans_node, allSpansList_append, allSpansList_cons, allSpansList_nil]
    · rw [if_neg hid] at h
      cases hl : insertChildList subs c with
      | none => rw [hl] at h; cases h
      | some subs' =>
        rw [hl] at h
        cases h
        have hp := insertChildList_spans subs c subs' hl
        simp only [allSpans_node, List.cons_append]
        exact hp.cons sp

theorem insertChildList_spans : ∀ (ts : List Trace) (c : Trace) (ts' : List Trace),
    insertChildList ts c = some ts' →
    (allSpansList ts').Perm (allSpansList ts ++ c.allSpans)
  | t :: rest, c, ts', h => by
    unfold insertChildList at h
    cases hi : insertChild t c with
    | some t2 =>
      rw [hi] at h
      cases h
      have hp := insertChild_spans t c t2 hi
      rw [List.perm_iff_count]
      intro x
      have h2 := (List.perm_iff_count.mp hp) x
      simp only [allSpansList_cons, List.count_append] at h2 ⊢
      omega
    | none =>
      rw [hi] at h
      cases hl : insertChildList rest c with
      | none => rw [hl] at h; cases h
      | some rest' =>
        rw [hl] at h
        cases h
        have hp := insertChildList_spans rest c rest' hl
        rw [List.perm_iff_count]
        intro x
        have h2 := (List.perm_iff_count.mp hp) x
        simp only [allSpansList_cons, List.count_append] at h2 ⊢
        omega

end

mutual

theorem insertChild_isSome_iff : ∀ (t c : Trace),
    (insertChild t c).isSome = true ↔ c.parentId ∈ t.ids
  | .node sp subs, c => by
    unfold insertChild
    rw [ids_node]
    by_cases hid : sp.ID.Span = c.parentId
    · simp [hid]
    · have hid' : ¬ c.parentId = sp.ID.Span := fun hh => hid hh.symm
      rw [if_neg hid]
      cases hl : insertChildList subs c with
      | none =>
        have := (insertChildList_isSome_iff subs c)
        rw [hl] at this
        simp only [Option.isSome_none, Bool.false_eq_true, false_iff] at this
        simp [List.mem_cons, hid', this]
      | some subs' =>
        have := (insertChildList_isSome_iff subs c)
        rw [hl] at this
        simp only [Option.isSome_some, true_iff] at this
        simp [List.mem_cons, this]

theorem insertChildList_isSome_iff : ∀ (ts : List Trace) (c : Trace),
    (insertChildList ts c).isSome = true ↔ c.parentId ∈ idsList ts
  | [], c => by
    unfold insertChildList
    simp [idsList_nil]
  | t :: rest, c => by
    unfold insertChildList
    rw [idsList_cons, List.mem_append]
    cases hi : insertChild t c with
    | some t2 =>
      have := insertChild_isSome_iff t c
      rw [hi] at this
      simp only [Option.isSome_some, true_iff] at this
      simp [this]
    | none =>
      have := insertChild_isSome_iff t c
      rw [hi] at this
      simp only [Option.isSome_none, Bool.false_eq_true, false_iff] at this
      cases hl : insertChildList rest c with
      | none =>
        have h2 := insertChildList_isSome_iff rest c
        rw [hl] at h2
        simp only [Option.isSome_none, Bool.false_eq_true, false_iff] at h2
        simp [this, h2]
      | some rest' =>
        have h2 := insertChildList_isSome_iff rest c
        rw [hl] at h2
        simp only [Option.isSome_some, true_iff] at h2
        simp [this, h2]

end

mutual

theorem insertChild_edges : ∀ (t c t' : Trace), insertChild t c = some t' →
    t'.edges.Perm ((c.parentId, c.Span) :: (t.edges ++ c.edges))
  | .node sp subs, c, t', h => by
    unfold insertChild at h
    by_cases hid : sp.ID.Span = c.parentId
    · rw [if_pos hid] at h
      cases h
      rw [edges_node, edges_node, edgesUnder_append, edgesUnder_cons, edgesUnder_nil, hid]
      rw [List.perm_iff_count]
      intro x
      simp only [List.count_append, List.count_cons, List.count_nil, List.append_nil]
      omega
    · rw [if_neg hid] at h
      cases hl : insertChildList subs c with
      | none => rw [hl] at h; cases h
      | some subs' =>
        rw [hl] at h
        cases h
        have hp := insertChildList_edges sp.ID.Span subs c subs' hl
        rw [edges_node, edges_node]
        exact hp

theorem insertChildList_edges : ∀ (pid : ID) (ts : List Trace) (c : Trace) (ts' : List Trace),
    insertChildList ts c = some ts' →
    (edgesUnder pid ts').Perm ((c.parentId, c.Span) :: (edgesUnder pid ts ++ c.edges))
  | pid, t :: rest, c, ts', h => by
    unfold insertChildList at h
    cases hi : insertChild t c with
    | some t2 =>
      rw [hi] at h
      cases h
      have hp := insertChild_edges t c t2 hi
      have hsp := Span_insertChild t c t2 hi
      rw [edgesUnder_cons, edgesUnder_cons, hsp]
      rw [List.perm_iff_count]
      intro x
      have h2 := (List.perm_iff_count.mp hp) x
      simp only [List.count_append, List.count_cons] at h2 ⊢
      omega
    | none =>
      rw [hi] at h
      cases hl : insertChildList rest c with
      | none => rw [hl] at h; cases h
      | some rest' =>
        rw [hl] at h
        cases h
        have hp := insertChildList_edges pid rest c rest' hl
        rw [edgesUnder_cons, edgesUnder_cons]
        rw [List.perm_iff_count]
        intro x
        have h2 := (List.perm_iff_count.mp hp) x
        simp only [List.count_append, List.count_cons] at h2 ⊢
        omega

end

/-! ## Assembler lemmas: attachment chains and passes -/

theorem AttachChain_mono (l : List Trace) : ∀ (S S' : List ID),
    (∀ x ∈ S, x ∈ S') → AttachChain S l → AttachChain S' l := by
  induction l with
  | nil => intro S S' _ _; trivial
  | cons c rest ih =>
    intro S S' hsub h
    obtain ⟨h1, h2⟩ := h
    refine ⟨hsub _ h1, ih _ _ ?_ h2⟩
    intro x hx
    rcases List.mem_append.mp hx with hx | hx
    · exact List.mem_append.mpr (Or.inl (hsub _ hx))
    · exact List.mem_append.mpr (Or.inr hx)

theorem AttachChain_snoc (l : List Trace) : ∀ (S : List ID) (c : Trace),
    AttachChain S l → c.parentId ∈ S ++ idsList l → AttachChain S (l ++ [c]) := by
  induction l with
  | nil =>
    intro S c _ hc
    refine ⟨?_, trivial⟩
    simpa [idsList_nil] using hc
  | cons d rest ih =>
    intro S c h hc
    obtain ⟨h1, h2⟩ := h
    refine ⟨h1, ih _ _ h2 ?_⟩
    rw [idsList_cons] at hc
    simp only [List.mem_append] at hc ⊢
    tauto

theorem AttachChain_append (a : List Trace) : ∀ (S : List ID) (b : List Trace),
    AttachChain S a → AttachChain (S ++ idsList a) b → AttachChain S (a ++ b) := by
  induction a with
  | nil =>
    intro S b _ hb
    simpa using AttachChain_mono b _ _ (by simp [idsList_nil]) hb
  | cons c rest ih =>
    intro S b ha hb
    obtain ⟨h1, h2⟩ := ha
    refine ⟨h1, ih _ _ h2 ?_⟩
    rw [idsList_cons, ← List.append_assoc] at hb
    exact hb

/-- `Attachable` only depends on the multiset of children. -/
theorem Attachable_perm (root : Trace) (cs cs' : List Trace) (hp : cs.Perm cs') :
    Attachable root cs ↔ Attachable root cs' := by
  constructor
  · rintro ⟨l, h1, h2⟩
    exact ⟨l, hp.symm.trans h1, h2⟩
  · rintro ⟨l, h1, h2⟩
    exact ⟨l, hp.trans h1, h2⟩

theorem addPass_nil (root : Trace) : addPass root [] = (root, []) := rfl

theorem addPass_cons (root : Trace) (c : Trace) (cs : List Trace) :
    addPass root (c :: cs) =
      match insertChild (addPass root cs).1 c with
      | some root' => (root', (addPass root cs).2)
      | none => ((addPass root cs).1, c :: (addPass root cs).2) := rfl

/-- One `addFn` pass: the attached children `att` form an attachment
chain from the pass's starting tree, the remaining children are the
rest in original order, and spans and edges are accounted exactly. -/
theorem addPass_spec (cs : List Trace) (root : Trace) :
    ∃ att, cs.Perm (att ++ (addPass root cs).2) ∧
      AttachChain root.ids att ∧
      (addPass root cs).1.allSpans.Perm (root.allSpans ++ allSpansList att) ∧
      (addPass root cs).1.edges.Perm (root.edges ++ pendingEdges att) ∧
      (addPass root cs).2.Sublist cs := by
  induction cs with
  | nil =>
    exact ⟨[], by simp [addPass_nil], trivial, by simp [addPass_nil, allSpansList_nil],
      by simp [addPass_nil, pendingEdges_nil], by simp [addPass_nil]⟩
  | cons c rest ih =>
    obtain ⟨att1, hperm, hchain, hspans, hedges, hsub⟩ := ih
    have hids : (addPass root rest).1.ids.Perm (root.ids ++ idsList att1) := by
      have := hspans.map (fun sp => sp.ID.Span)
      simpa [Trace.ids, idsList] using this
    rw [addPass_cons]
    cases hi : insertChild (addPass root rest).1 c with
    | some root2 =>
      have hcp : c.parentId ∈ (addPass root rest).1.ids := by
        have := insertChild_isSome_iff (addPass root rest).1 c
        rw [hi] at this
        exact this.mp rfl
      have hcp' : c.parentId ∈ root.ids ++ idsList att1 := hids.mem_iff.mp hcp
      have hsp2 := insertChild_spans _ _ _ hi
      have hed2 := insertChild_edges _ _ _ hi
      refine ⟨att1 ++ [c], ?_, ?_, ?_, ?_, ?_⟩
      · rw [List.perm_iff_count]
        intro x
        have h1 := (List.perm_iff_count.mp hperm) x
        simp only [List.count_append, List.count_cons, List.count_nil] at h1 ⊢
        omega
      · exact AttachChain_snoc att1 root.ids c hchain hcp'
      · rw [List.perm_iff_count]
        intro x
        have h1 := (List.perm_iff_count.mp hspans) x
        have h2 := (List.perm_iff_count.mp hsp2) x
        simp only [allSpansList_append, allSpansList_cons, allSpansList_nil,
          List.count_append, List.count_nil] at h1 h2 ⊢
        omega
      · rw [List.perm_iff_count]
        intro x
        have h1 := (List.perm_iff_count.mp hedges) x
        have h2 := (List.perm_iff_count.mp hed2) x
        simp only [pendingEdges_append, pendingEdges_cons, pendingEdges_nil,
          List.count_append, List.count_cons, List.count_nil] at h1 h2 ⊢
        omega
      · exact hsub.trans (List.sublist_cons_self c rest)
    | none =>
      refine ⟨att1, ?_, hchain, hspans, hedges, ?_⟩
      · rw [List.perm_iff_count]
        intro x
        have h1 := (List.perm_iff_count.mp hperm) x
        simp only [List.count_append, List.count_cons] at h1 ⊢
        omega
      · exact hsub.cons₂ c

/-- A pass attaches at least one child when some remaining child's
parent id is already in the tree. -/
theorem addPass_progress (cs : List Trace) (root : Trace)
    (h : ∃ c ∈ cs, c.parentId ∈ root.ids) :
    (addPass root cs).2.length < cs.length := by
  induction cs with
  | nil =>
    obtain ⟨c, hc, _⟩ := h
    simp at hc
  | cons c rest ih =>
    obtain ⟨att1, hperm, hchain, hspans, hedges, hsub⟩ := addPass_spec rest root
    have hmono : ∀ x ∈ root.ids, x ∈ (addPass root rest).1.ids := by
      intro x hx
      have hids : (addPass root rest).1.ids.Perm (root.ids ++ idsList att1) := by
        have := hspans.map (fun sp => sp.ID.Span)
        simpa [Trace.ids, idsList] using this
      exact hids.mem_iff.mpr (List.mem_append.mpr (Or.inl hx))
    rw [addPass_cons]
    cases hi : insertChild (addPass root rest).1 c with
    | some root2 =>
      have := hsub.length_le
      simpa using Nat.lt_succ_of_le this
    | none =>
      obtain ⟨d, hd, hdp⟩ := h
      rcases List.mem_cons.mp hd with rfl | hd
      · exfalso
        have hsome : (insertChild (addPass root rest).1 d).isSome = true :=
          (insertChild_isSome_iff _ _).mpr (hmono _ hdp)
        rw [hi] at hsome
        cases hsome
      · have := ih ⟨d, hd, hdp⟩
        simpa using Nat.succ_lt_succ this

/-- Splitting an attachment chain: removing from an attachable
enumeration a sub-multiset `a` whose span ids are all available in a
larger base `S'` leaves the remainder `b` attachable from `S'`. -/
theorem AttachChain_split (l : List Trace) : ∀ (S S' : List ID) (a b : List Trace),
    AttachChain S l → l.Perm (a ++ b) →
    (∀ x ∈ S, x ∈ S') → (∀ x ∈ idsList a, x ∈ S') →
    ∃ b', b.Perm b' ∧ AttachChain S' b' := by
  induction l with
  | nil =>
    intro S S' a b _ hperm _ _
    have : a ++ b = [] := List.Perm.eq_nil hperm.symm
    rcases List.append_eq_nil.mp this with ⟨_, rfl⟩
    exact ⟨[], List.Perm.refl _, trivial⟩
  | cons c rest ih =>
    intro S S' a b h hperm hS ha
    obtain ⟨hc, hchain⟩ := h
    by_cases hca : c ∈ a
    · have hpe : a.Perm (c :: a.erase c) := List.perm_cons_erase hca
      have hpp : (c :: rest).Perm (c :: (a.erase c ++ b)) :=
        hperm.trans (hpe.append_right b)
      have hrest : rest.Perm (a.erase c ++ b) := hpp.cons_inv
      refine ih (S ++ c.ids) S' (a.erase c) b hchain hrest ?_ ?_
      · intro x hx
        rcases List.mem_append.mp hx with hx | hx
        · exact hS _ hx
        · refine ha _ ?_
          rw [mem_idsList]
          exact ⟨c, hca, hx⟩
      · intro x hx
        rw [mem_idsList] at hx
        obtain ⟨t, ht, hxt⟩ := hx
        refine ha _ ?_
        rw [mem_idsList]
        exact ⟨t, List.mem_of_mem_erase ht, hxt⟩
    · have hcb : c ∈ b := by
        have : c ∈ a ++ b := hperm.subset (List.mem_cons_self c rest)
        rcases List.mem_append.mp this with hx | hx
        · exact absurd hx hca
        · exact hx
      have hpe : b.Perm (c :: b.erase c) := List.perm_cons_erase hcb
      have hpp : (c :: rest).Perm (c :: (a ++ b.erase c)) :=
        hperm.trans ((hpe.append_left a).trans List.perm_middle)
      have hrest : rest.Perm (a ++ b.erase c) := hpp.cons_inv
      obtain ⟨b'', hb'', hchain''⟩ := ih (S ++ c.ids) (S' ++ c.ids) a (b.erase c) hchain hrest
        (by
          intro x hx
          rcases List.mem_append.mp hx with hx | hx
          · exact List.mem_append.mpr (Or.inl (hS _ hx))
          · exact List.mem_append.mpr (Or.inr hx))
        (fun x hx => List.mem_append.mpr (Or.inl (ha _ hx)))
      exact ⟨c :: b'', hpe.trans (hb''.cons c), hS _ hc, hchain''⟩

theorem addChildrenAux_nil (root : Trace) (fuel : Nat) :
    addChildrenAux root [] fuel = .ok root := by
  cases fuel <;> rfl

theorem addChildrenAux_error_or_ok (fuel : Nat) : ∀ (root : Trace) (cs : List Trace),
    addChildrenAux root cs fuel = .error errMaxRetriesMsg ∨
    ∃ t, addChildrenAux root cs fuel = .ok t := by
  induction fuel with
  | zero =>
    intro root cs
    cases cs with
    | nil => exact Or.inr ⟨root, rfl⟩
    | cons c rest => exact Or.inl rfl
  | succ f ih =>
    intro root cs
    cases cs with
    | nil => exact Or.inr ⟨root, rfl⟩
    | cons c rest =>
      exact ih (addPass root (c :: rest)).1 (addPass root (c :: rest)).2

theorem addChildrenAux_cons (root : Trace) (c : Trace) (cs : List Trace) (f : Nat) :
    addChildrenAux root (c :: cs) (f + 1) =
      addChildrenAux (addPass root (c :: cs)).1 (addPass root (c :: cs)).2 f := rfl

/-- Soundness: a successful attachment run yields an attachment
enumeration of the children. -/
theorem addChildrenAux_ok_attachable (fuel : Nat) : ∀ (root : Trace) (cs : List Trace) (t : Trace),
    addChildrenAux root cs fuel = .ok t → Attachable root cs := by
  induction fuel with
  | zero =>
    intro root cs t h
    cases cs with
    | nil => exact ⟨[], List.Perm.refl _, trivial⟩
    | cons c rest => cases h
  | succ f ih =>
    intro root cs t h
    cases cs with
    | nil => exact ⟨[], List.Perm.refl _, trivial⟩
    | cons c rest =>
      rw [addChildrenAux_cons] at h
      obtain ⟨att, hperm, hchain, hspans, _, _⟩ := addPass_spec (c :: rest) root
      obtain ⟨l', hperm', hchain'⟩ := ih _ _ _ h
      have hids : (addPass root (c :: rest)).1.ids.Perm (root.ids ++ idsList att) := by
        have := hspans.map (fun sp => sp.ID.Span)
        simpa [Trace.ids, idsList] using this
      refine ⟨att ++ l', hperm.trans (hperm'.append_left att), ?_⟩
      refine AttachChain_append att root.ids l' hchain ?_
      exact AttachChain_mono l' _ _ (fun x hx => hids.mem_iff.mp hx) hchain'

/-- Completeness: attachable children are fully attached within
`length`-many passes. -/
theorem addChildrenAux_ok_of_attachable (fuel : Nat) : ∀ (root : Trace) (cs : List Trace),
    cs.length ≤ fuel → Attachable root cs →
    ∃ t, addChildrenAux root cs fuel = .ok t := by
  induction fuel with
  | zero =>
    intro root cs hlen _
    have : cs = [] := List.length_eq_zero.mp (Nat.le_zero.mp hlen)
    subst this
    exact ⟨root, rfl⟩
  | succ f ih =>
    intro root cs hlen h
    cases cs with
    | nil => exact ⟨root, rfl⟩
    | cons c rest =>
      obtain ⟨l', hp, hchainl⟩ := h
      cases l' with
      | nil => exact absurd hp.symm (by simp)
      | cons d l'' =>
        obtain ⟨hd1, hd2⟩ := hchainl
        have hd : d ∈ c :: rest := hp.symm.subset (List.mem_cons_self d l'')
        have hprog := addPass_progress (c :: rest) root ⟨d, hd, hd1⟩
        obtain ⟨att, hperm, hchain, hspans, _, _⟩ := addPass_spec (c :: rest) root
        have hids : (addPass root (c :: rest)).1.ids.Perm (root.ids ++ idsList att) := by
          have := hspans.map (fun sp => sp.ID.Span)
          simpa [Trace.ids, idsList] using this
        obtain ⟨b', hb', hchainb⟩ := AttachChain_split (d :: l'') root.ids
          (addPass root (c :: rest)).1.ids att (addPass root (c :: rest)).2
          ⟨hd1, hd2⟩ (hp.symm.trans hperm)
          (fun x hx => hids.mem_iff.mpr (List.mem_append.mpr (Or.inl hx)))
          (fun x hx => hids.mem_iff.mpr (List.mem_append.mpr (Or.inr hx)))
        obtain ⟨t, ht⟩ := ih (addPass root (c :: rest)).1 (addPass root (c :: rest)).2
          (by omega) ⟨b', hb', hchainb⟩
        exact ⟨t, by rw [addChildrenAux_cons]; exact ht⟩

theorem addChildren_ok_iff (root : Trace) (cs : List Trace) :
    (∃ t, addChildren root cs = .ok t) ↔ Attachable root cs := by
  constructor
  · rintro ⟨t, ht⟩
    exact addChildrenAux_ok_attachable cs.length root cs t ht
  · intro h
    exact addChildrenAux_ok_of_attachable cs.length root cs (Nat.le_refl _) h

theorem addChildren_error_of_not_attachable (root : Trace) (cs : List Trace)
    (h : ¬ Attachable root cs) : addChildren root cs = .error errMaxRetriesMsg := by
  rcases addChildrenAux_error_or_ok cs.length root cs with he | ⟨t, ht⟩
  · exact he
  · exact absurd ((addChildren_ok_iff root cs).mp ⟨t, ht⟩) h

/-! ## Claim C2: `addChildren` succeeds exactly on attachable input -/

/-- C2: for every root and children list, and every permutation of that
list, `addChildren` succeeds exactly when the children are attachable
under the root (some ordering attaches each child's parent span id to
an id already in the tree built so far — no cycles, no parent ids that
occur nowhere); on non-attachable input it returns precisely the
`maximum number of retries` error (`MaxRetriesExceeded`). -/
theorem C2_addChildren_ok_iff_attachable (root : Trace) (cs cs' : List Trace)
    (hperm : cs.Perm cs') :
    ((∃ t, addChildren root cs' = .ok t) ↔ Attachable root cs) ∧
    (¬ Attachable root cs → addChildren root cs' = .error errMaxRetriesMsg) := by
  constructor
  · rw [addChildren_ok_iff root cs']
    exact (Attachable_perm root cs cs' hperm).symm
  · intro h
    refine addChildren_error_of_not_attachable root cs' ?_
    exact fun hc => h ((Attachable_perm root cs cs' hperm).mpr hc)

/-- Witness for C2: a single child under the root attaches (and is
attachable), and a child referencing a nonexistent parent id fails with
the retries error. -/
theorem C2_addChildren_ok_iff_attachable_witness :
    addChildren (.node ⟨⟨1, 1, 0⟩, []⟩ []) [.node ⟨⟨1, 2, 1⟩, []⟩ []] =
      .ok (.node ⟨⟨1, 1, 0⟩, []⟩ [.node ⟨⟨1, 2, 1⟩, []⟩ []]) ∧
    Attachable (.node ⟨⟨1, 1, 0⟩, []⟩ []) [.node ⟨⟨1, 2, 1⟩, []⟩ []] ∧
    addChildren (.node ⟨⟨1, 1, 0⟩, []⟩ []) [.node ⟨⟨1, 2, 5⟩, []⟩ []] =
      .error errMaxRetriesMsg := by
  refine ⟨by decide, ?_, ?_⟩
  · exact ((C2_addChildren_ok_iff_attachable (.node ⟨⟨1, 1, 0⟩, []⟩ [])
      [.node ⟨⟨1, 2, 1⟩, []⟩ []] [.node ⟨⟨1, 2, 1⟩, []⟩ []] (List.Perm.refl _)).1).mp
      ⟨Trace.node ⟨⟨1, 1, 0⟩, []⟩ [.node ⟨⟨1, 2, 1⟩, []⟩ []], by decide⟩
  · refine (C2_addChildren_ok_iff_attachable (.node ⟨⟨1, 1, 0⟩, []⟩ [])
      [.node ⟨⟨1, 2, 5⟩, []⟩ []] [.node ⟨⟨1, 2, 5⟩, []⟩ []] (List.Perm.refl _)).2 ?_
    rintro ⟨l, hp, hchain⟩
    cases l with
    | nil => exact absurd hp (by decide)
    | cons d l' =>
      obtain ⟨hd1, _⟩ := hchain
      have hdmem : d ∈ [Trace.node ⟨⟨1, 2, 5⟩, []⟩ []] :=
        hp.symm.subset (List.mem_cons_self d l')
      rw [List.mem_singleton] at hdmem
      subst hdmem
      revert hd1
      decide

/-! ## Claim C5: permutation invariance of the assembled tree -/

theorem allSpansList_perm (cs ds : List Trace) (h : cs.Perm ds) :
    (allSpansList cs).Perm (allSpansList ds) := by
  rw [← pendingSpans_eq, ← pendingSpans_eq]
  exact h.flatMap_right Trace.allSpans

theorem pendingEdges_perm (cs ds : List Trace) (h : cs.Perm ds) :
    (pendingEdges cs).Perm (pendingEdges ds) := by
  unfold pendingEdges
  exact h.flatMap_right _

/-- A successful attachment run accounts for exactly the spans and
edges of the root plus all children. -/
theorem addChildrenAux_ok_spans_edges (fuel : Nat) : ∀ (root : Trace) (cs : List Trace)
    (t : Trace), addChildrenAux root cs fuel = .ok t →
    t.allSpans.Perm (root.allSpans ++ allSpansList cs) ∧
    t.edges.Perm (root.edges ++ pendingEdges cs) := by
  induction fuel with
  | zero =>
    intro root cs t h
    cases cs with
    | nil =>
      cases h
      constructor <;> simp [allSpansList_nil, pendingEdges_nil]
    | cons c rest => cases h
  | succ f ih =>
    intro root cs t h
    cases cs with
    | nil =>
      cases h
      constructor <;> simp [allSpansList_nil, pendingEdges_nil]
    | cons c rest =>
      rw [addChildrenAux_cons] at h
      obtain ⟨hsp, hed⟩ := ih _ _ _ h
      obtain ⟨att, hperm, _, hspans, hedges, _⟩ := addPass_spec (c :: rest) root
      have hs1 : (allSpansList (c :: rest)).Perm
          (allSpansList att ++ allSpansList (addPass root (c :: rest)).2) := by
        have := allSpansList_perm _ _ hperm
        rwa [allSpansList_append] at this
      have he1 : (pendingEdges (c :: rest)).Perm
          (pendingEdges att ++ pendingEdges (addPass root (c :: rest)).2) := by
        have := pendingEdges_perm _ _ hperm
        rwa [pendingEdges_append] at this
      constructor
      · rw [List.perm_iff_count]
        intro x
        have h1 := (List.perm_iff_count.mp hsp) x
        have h2 := (List.perm_iff_count.mp hspans) x
        have h3 := (List.perm_iff_count.mp hs1) x
        simp only [List.count_append] at h1 h2 h3 ⊢
        omega
      · rw [List.perm_iff_count]
        intro x
        have h1 := (List.perm_iff_count.mp hed) x
        have h2 := (List.perm_iff_count.mp hedges) x
        have h3 := (List.perm_iff_count.mp he1) x
        simp only [List.count_append] at h1 h2 h3 ⊢
        omega

/-- Counterexample for C5: attaching the two sibling children in the
two possible input orders yields two different `Trace` values — the
sibling order under the root follows the input order, so the resulting
trees are not identical as values. -/
theorem C5_counterexample :
    List.Perm [Trace.node ⟨⟨1, 2, 1⟩, []⟩ [], Trace.node ⟨⟨1, 3, 1⟩, []⟩ []]
      [Trace.node ⟨⟨1, 3, 1⟩, []⟩ [], Trace.node ⟨⟨1, 2, 1⟩, []⟩ []] ∧
    addChildren (.node ⟨⟨1, 1, 0⟩, []⟩ [])
        [.node ⟨⟨1, 2, 1⟩, []⟩ [], .node ⟨⟨1, 3, 1⟩, []⟩ []] =
      .ok (.node ⟨⟨1, 1, 0⟩, []⟩ [.node ⟨⟨1, 3, 1⟩, []⟩ [], .node ⟨⟨1, 2, 1⟩, []⟩ []]) ∧
    addChildren (.node ⟨⟨1, 1, 0⟩, []⟩ [])
        [.node ⟨⟨1, 3, 1⟩, []⟩ [], .node ⟨⟨1, 2, 1⟩, []⟩ []] =
      .ok (.node ⟨⟨1, 1, 0⟩, []⟩ [.node ⟨⟨1, 2, 1⟩, []⟩ [], .node ⟨⟨1, 3, 1⟩, []⟩ []]) ∧
    Trace.node ⟨⟨1, 1, 0⟩, []⟩ [.node ⟨⟨1, 3, 1⟩, []⟩ [], .node ⟨⟨1, 2, 1⟩, []⟩ []] ≠
      Trace.node ⟨⟨1, 1, 0⟩, []⟩ [.node ⟨⟨1, 2, 1⟩, []⟩ [], .node ⟨⟨1, 3, 1⟩, []⟩ []] := by
  refine ⟨by decide, by decide, by decide, by decide⟩

/-- C5 (amended): for any two permutations of the children that both
attach successfully, the resulting trees carry the same spans and the
same parent/child edges (the same child records appear under the same
parents, counted with multiplicity); the resulting `Trace` values may
still differ in the order of sibling lists, so they need not be
identical. -/
theorem C5_attach_perm_same_tree (root : Trace) (cs cs' : List Trace) (t t' : Trace)
    (hperm : cs.Perm cs') (h : addChildren root cs = .ok t)
    (h' : addChildren root cs' = .ok t') :
    t.allSpans.Perm t'.allSpans ∧ t.edges.Perm t'.edges := by
  obtain ⟨hs1, he1⟩ := addChildrenAux_ok_spans_edges cs.length root cs t h
  obtain ⟨hs2, he2⟩ := addChildrenAux_ok_spans_edges cs'.length root cs' t' h'
  constructor
  · refine hs1.trans (List.Perm.trans ?_ hs2.symm)
    exact (allSpansList_perm cs cs' hperm).append_left root.allSpans
  · refine he1.trans (List.Perm.trans ?_ he2.symm)
    exact (pendingEdges_perm cs cs' hperm).append_left root.edges

/-- Witness for C5 (amended): the two sibling orders from the
counterexample produce trees with the same span and edge multisets. -/
theorem C5_attach_perm_same_tree_witness :
    (Trace.node ⟨⟨1, 1, 0⟩, []⟩
        [.node ⟨⟨1, 3, 1⟩, []⟩ [], .node ⟨⟨1, 2, 1⟩, []⟩ []]).allSpans.Perm
      (Trace.node ⟨⟨1, 1, 0⟩, []⟩
        [.node ⟨⟨1, 2, 1⟩, []⟩ [], .node ⟨⟨1, 3, 1⟩, []⟩ []]).allSpans ∧
    (Trace.node ⟨⟨1, 1, 0⟩, []⟩
        [.node ⟨⟨1, 3, 1⟩, []⟩ [], .node ⟨⟨1, 2, 1⟩, []⟩ []]).edges.Perm
      (Trace.node ⟨⟨1, 1, 0⟩, []⟩
        [.node ⟨⟨1, 2, 1⟩, []⟩ [], .node ⟨⟨1, 3, 1⟩, []⟩ []]).edges :=
  C5_attach_perm_same_tree (.node ⟨⟨1, 1, 0⟩, []⟩ [])
    [.node ⟨⟨1, 2, 1⟩, []⟩ [], .node ⟨⟨1, 3, 1⟩, []⟩ []]
    [.node ⟨⟨1, 3, 1⟩, []⟩ [], .node ⟨⟨1, 2, 1⟩, []⟩ []] _ _
    (by decide) (by decide) (by decide)

/-! ## Claim C4: the root partition of `Trace(id)` -/

theorem partitionSpans_no_root (spans : List Span) :
    ∀ (rootSet : Bool) (rootSp : Span) (acc : List Trace),
    (∀ sp ∈ spans, sp.ID.isRoot = false) →
    partitionSpans spans rootSet rootSp acc =
      .ok (rootSp, acc ++ spans.map (fun sp => Trace.node sp [])) := by
  induction spans with
  | nil =>
    intro _ _ acc _
    simp [partitionSpans]
  | cons sp rest ih =>
    intro rootSet rootSp acc h
    have hsp : sp.ID.isRoot = false := h sp (List.mem_cons_self _ _)
    unfold partitionSpans
    rw [hsp]
    simp only [Bool.false_and, if_neg (by simp : ¬ false = true)]
    rw [ih rootSet rootSp (acc ++ [Trace.node sp []])
      (fun d hd => h d (List.mem_cons_of_mem _ hd))]
    simp

theorem partitionSpans_second_root (spans : List Span) :
    ∀ (rootSp : Span) (acc : List Trace),
    (∃ sp ∈ spans, sp.ID.isRoot = true) →
    partitionSpans spans true rootSp acc = .error "unexpected multiple root spans" := by
  induction spans with
  | nil =>
    rintro _ _ ⟨sp, h, _⟩
    simp at h
  | cons sp rest ih =>
    rintro rootSp acc ⟨d, hd, hdr⟩
    unfold partitionSpans
    by_cases hsp : sp.ID.isRoot
    · simp [hsp]
    · rcases List.mem_cons.mp hd with rfl | hd
      · exact absurd hdr (by simpa using hsp)
      · rw [Bool.not_eq_true] at hsp
        simp only [hsp, Bool.false_and, Bool.false_eq_true, if_false]
        exact ih rootSp (acc ++ [Trace.node sp []]) ⟨d, hd, hdr⟩

theorem partitionSpans_two_roots (spans : List Span) :
    ∀ (rootSp : Span) (acc : List Trace),
    2 ≤ (spans.filter (fun sp => sp.ID.isRoot)).length →
    partitionSpans spans false rootSp acc = .error "unexpected multiple root spans" := by
  induction spans with
  | nil =>
    intro _ _ h
    simp at h
  | cons sp rest ih =>
    intro rootSp acc h
    unfold partitionSpans
    by_cases hsp : sp.ID.isRoot
    · have hlen : 1 ≤ (rest.filter (fun sp => sp.ID.isRoot)).length := by
        rw [List.filter_cons, if_pos (by simpa using hsp)] at h
        simpa using Nat.le_of_succ_le_succ h
      have hex : ∃ d ∈ rest, d.ID.isRoot = true := by
        have hne : rest.filter (fun sp => sp.ID.isRoot) ≠ [] := by
          intro hnil
          rw [hnil] at hlen
          simp at hlen
        obtain ⟨d, hd⟩ := List.exists_mem_of_ne_nil _ hne
        exact ⟨d, List.mem_of_mem_filter hd, by simpa using List.of_mem_filter hd⟩
      rw [(by simp [hsp] : (sp.ID.isRoot && false) = false)]
      simp only [if_neg (by simp : ¬ false = true), if_pos hsp]
      exact partitionSpans_second_root rest sp acc hex
    · have hlen : 2 ≤ (rest.filter (fun sp => sp.ID.isRoot)).length := by
        rw [List.filter_cons, if_neg (by simpa using hsp)] at h
        exact h
      rw [(by simp [hsp] : (sp.ID.isRoot && false) = false)]
      simp only [if_neg (by simp : ¬ false = true), if_neg hsp]
      exact ih rootSp (acc ++ [Trace.node sp []]) hlen

theorem not_isRoot_parent_ne_zero (sp : Span) (h : sp.ID.isRoot = false) :
    sp.ID.Parent ≠ 0 := by
  simpa [SpanID.isRoot, zeroID] using h

/-- With no root record, the zero-valued root trace (span ids all `0`)
cannot accept any of the non-root children, so attachment fails. -/
theorem no_root_not_attachable (spans : List Span) (hne : spans ≠ [])
    (h : ∀ sp ∈ spans, sp.ID.isRoot = false) :
    ¬ Attachable (.node ⟨⟨0, 0, 0⟩, []⟩ []) (spans.map (fun sp => Trace.node sp [])) := by
  rintro ⟨l, hp, hchain⟩
  cases l with
  | nil =>
    have := hp.eq_nil
    simp only [List.map_eq_nil_iff] at this
    exact hne this
  | cons d l' =>
    obtain ⟨hd1, _⟩ := hchain
    have hdmem : d ∈ spans.map (fun sp => Trace.node sp []) :=
      hp.symm.subset (List.mem_cons_self d l')
    obtain ⟨sp, hsp, rfl⟩ := List.mem_map.mp hdmem
    have : (Trace.node ⟨⟨0, 0, 0⟩, []⟩ []).ids = [0] := rfl
    rw [this] at hd1
    rw [List.mem_singleton] at hd1
    exact not_isRoot_parent_ne_zero sp (h sp hsp) hd1

/-- Counterexample for C4: one returned record, not a root — the claim
says `Trace` fails with the `NotFound` condition, but the code reaches
`addChildren` with the zero-valued root and fails with the
`MaxRetriesExceeded` error instead. -/
theorem C4_counterexample :
    traceFromSpans [⟨⟨1, 2, 3⟩, []⟩] = .error errMaxRetriesMsg ∧
    traceFromSpans [⟨⟨1, 2, 3⟩, []⟩] ≠ .error "trace not found" := by
  constructor
  · decide
  · decide

/-- C4 (amended): `NotFound` (`trace not found`) arises only when the
query returns no records at all; with at least one record and zero
roots the children cannot attach to the zero-valued root and the call
fails with the `MaxRetriesExceeded` error; more than one root is the
`InvariantViolation` (`unexpected multiple root spans`); a successful
tree requires exactly one root record. -/
theorem C4_trace_root_partition :
    (traceFromSpans [] = .error "trace not found") ∧
    (∀ spans : List Span, spans ≠ [] →
      (spans.filter (fun sp => sp.ID.isRoot)).length = 0 →
      traceFromSpans spans = .error errMaxRetriesMsg) ∧
    (∀ spans : List Span, 2 ≤ (spans.filter (fun sp => sp.ID.isRoot)).length →
      traceFromSpans spans = .error "unexpected multiple root spans") ∧
    (∀ (spans : List Span) (t : Trace), traceFromSpans spans = .ok t →
      (spans.filter (fun sp => sp.ID.isRoot)).length = 1) := by
  have hnoroot : ∀ (spans : List Span), spans ≠ [] →
      (spans.filter (fun sp => sp.ID.isRoot)).length = 0 →
      traceFromSpans spans = .error errMaxRetriesMsg := by
    intro spans hne hcount
    have hall : ∀ sp ∈ spans, sp.ID.isRoot = false := by
      intro sp hsp
      by_contra hroot
      rw [Bool.not_eq_false] at hroot
      have : sp ∈ spans.filter (fun sp => sp.ID.isRoot) := List.mem_filter.mpr ⟨hsp, hroot⟩
      rw [List.length_eq_zero.mp hcount] at this
      simp at this
    cases spans with
    | nil => exact absurd rfl hne
    | cons sp rest =>
      unfold traceFromSpans
      rw [partitionSpans_no_root (sp :: rest) false ⟨⟨0, 0, 0⟩, []⟩ [] hall]
      simp only [List.nil_append]
      exact addChildren_error_of_not_attachable _ _
        (no_root_not_attachable (sp :: rest) hne hall)
  refine ⟨rfl, hnoroot, ?_, ?_⟩
  · intro spans h2
    cases spans with
    | nil => simp at h2
    | cons sp rest =>
      unfold traceFromSpans
      rw [partitionSpans_two_roots (sp :: rest) ⟨⟨0, 0, 0⟩, []⟩ [] h2]
  · intro spans t hok
    by_contra hcount
    rcases Nat.lt_or_ge (spans.filter (fun sp => sp.ID.isRoot)).length 2 with hlt | hge
    · have h0 : (spans.filter (fun sp => sp.ID.isRoot)).length = 0 := by omega
      cases spans with
      | nil => cases hok
      | cons sp rest =>
        rw [hnoroot (sp :: rest) (by simp) h0] at hok
        cases hok
    · cases spans with
      | nil => cases hok
      | cons sp rest =>
        have := partitionSpans_two_roots (sp :: rest) ⟨⟨0, 0, 0⟩, []⟩ [] hge
        unfold traceFromSpans at hok
        rw [this] at hok
        cases hok

/-- Witness for C4 (amended): a lone non-root record gives the retries
error, two roots give the multiple-roots error, and a root plus child
succeed with exactly one root among the records. -/
theorem C4_trace_root_partition_witness :
    traceFromSpans [⟨⟨1, 2, 3⟩, []⟩] = .error errMaxRetriesMsg ∧
    traceFromSpans [⟨⟨1, 1, 0⟩, []⟩, ⟨⟨1, 2, 0⟩, []⟩] =
      .error "unexpected multiple root spans" ∧
    ([(⟨⟨1, 1, 0⟩, []⟩ : Span), ⟨⟨1, 2, 1⟩, []⟩].filter
      (fun sp => sp.ID.isRoot)).length = 1 := by
  refine ⟨?_, ?_, ?_⟩
  · exact C4_trace_root_partition.2.1 [⟨⟨1, 2, 3⟩, []⟩] (by decide) (by decide)
  · exact C4_trace_root_partition.2.2.1 [⟨⟨1, 1, 0⟩, []⟩, ⟨⟨1, 2, 0⟩, []⟩] (by decide)
  · exact C4_trace_root_partition.2.2.2 [⟨⟨1, 1, 0⟩, []⟩, ⟨⟨1, 2, 1⟩, []⟩]
      (.node ⟨⟨1, 1, 0⟩, []⟩ [.node ⟨⟨1, 2, 1⟩, []⟩ []]) (by decide)
